import Mathlib

/-!
Verification development for the NatSys-Lab ring-buffer queues
(src/lockfree_rb_q.cc).

The source file contains two queues:

- NaiveQueue: a mutex/condvar-serialized ring buffer with counters
  head_ and tail_ and a slot array indexed by counter & Q_MASK.
- LockFreeQueue: an N-producer / M-consumer lock-free ring buffer.
  Each thread publishes its position in a per-thread registry
  (thr_p_[tid].head / .tail); ULONG_MAX is the sentinel meaning
  "no live reservation".

Machine integers: the counters are 64-bit unsigned (the source warns
unless __x86_64__).  Following the specification's own idealization
("wrap-around safe for all practical durations (64-bit)") counters are
modeled as Nat, and ULONG_MAX becomes the constant SENTINEL = 2^64 - 1.

Concurrency is modeled by a small-step interleaving semantics: every
shared-memory access of the C++ code (one volatile load, one volatile
store, or one atomic read-modify-write) is one transition; a scheduler
chooses which thread performs its next access.  __sync_synchronize()
is a full fence; in a sequentially consistent interleaving semantics it
has no state effect and is kept as an explicit no-op transition so that
the step structure of push()/pop() matches the source line by line.
sched_yield() only hints the scheduler and is folded into the loop-entry
transition.

In addition a sequential (uninterfered, single-thread-at-a-time)
functional semantics of the same push/pop code is given for the
single-producer / single-consumer round-trip property.
-/

/-- ULONG_MAX on the 64-bit targets the source insists on; the source
constructor memsets the registry with 0xFF bytes, i.e. every per-thread
position starts as this sentinel. -/
def SENTINEL : Nat := 2 ^ 64 - 1

/-- Pointwise function update, modeling a store into an array cell. -/
def updf {α : Type} (f : Nat → α) (i : Nat) (v : α) : Nat → α :=
  fun j => if j = i then v else f j

theorem updf_same {α : Type} (f : Nat → α) (i : Nat) (v : α) : updf f i v i = v := by
  simp [updf]

theorem updf_other {α : Type} (f : Nat → α) (i : Nat) (v : α) {j : Nat} (h : j ≠ i) :
    updf f i v j = f j := by
  simp [updf, h]

/-- Static configuration of a LockFreeQueue: number of producers
(n_producers_), number of consumers (n_consumers_) and the capacity
Q_SIZE (a template parameter, 32*1024 in the source's tests). -/
structure Cfg where
  N : Nat
  M : Nat
  Q : Nat

/-!
Naive serialized queue (NaiveQueue<T, Q_SIZE>).

The mutex serializes push/pop, so each operation is one atomic step on
the state.  A condition-variable wait is modeled by the operation being
disabled (returning none): push blocks until tail_ + Q_SIZE > head_,
pop blocks until tail_ < head_.
-/

structure NQ where
  head : Nat
  tail : Nat
  slots : Nat → Nat

/-- NaiveQueue initial state: head_ = 0, tail_ = 0, slots uninitialized
(modeled as all 0; never read before written). -/
def initNQ : NQ := ⟨0, 0, fun _ => 0⟩

/-- Guard of NaiveQueue::push: cond_overflow_.wait until
tail_ + Q_SIZE > head_. -/
def nCanPush (Q : Nat) (q : NQ) : Prop := q.tail + Q > q.head

/-- Guard of NaiveQueue::pop: cond_empty_.wait until tail_ < head_. -/
def nCanPop (q : NQ) : Prop := q.tail < q.head

instance (Q : Nat) (q : NQ) : Decidable (nCanPush Q q) := by
  unfold nCanPush; infer_instance

instance (q : NQ) : Decidable (nCanPop q) := by
  unfold nCanPop; infer_instance

/-- NaiveQueue::push: wait until not full, then
ptr_array_[head_++ & Q_MASK] = x.  A result of none means the operation
is blocked waiting on the condition variable. -/
def nPush (Q : Nat) (q : NQ) (x : Nat) : Option NQ :=
  if nCanPush Q q then
    some { head := q.head + 1, tail := q.tail,
           slots := updf q.slots (q.head &&& (Q - 1)) x }
  else none

/-- NaiveQueue::pop: wait until not empty, then
return ptr_array_[tail_++ & Q_MASK]. -/
def nPop (Q : Nat) (q : NQ) : Option (Nat × NQ) :=
  if nCanPop q then
    some (q.slots (q.tail &&& (Q - 1)),
          { head := q.head, tail := q.tail + 1, slots := q.slots })
  else none

/-!
Lock-free queue: small-step interleaving model.

Producer program counter.  A producer executing push(v) walks through
these stages; each stage performs exactly one shared-memory access of
LockFreeQueue::push:

  snapReadP v      : read head_                      (thr_pos().head = head_)
  snapWriteP v h   : write thr_p_[p].head = h
  fenceP v         : __sync_synchronize()
  faaP v           : __sync_fetch_and_add(&head_, 1)
  claimWP v m      : write thr_p_[p].head = m        (the prior head value)
  checkP v m       : read last_tail_, test thr_pos().head >= last_tail_ + Q_SIZE
  scanTP v m       : read tail_                      (auto min = tail_)
  scanLP v m mn i  : read thr_p_[i].tail, keep the smaller of it and mn
  scanWP v m mn    : write last_tail_ = mn
  slotWP v m       : write ptr_array_[thr_pos().head & Q_MASK] = v
  relP m           : write thr_p_[p].head = ULONG_MAX
-/
inductive PPC where
  | idleP
  | snapReadP (v : Nat)
  | snapWriteP (v h : Nat)
  | fenceP (v : Nat)
  | faaP (v : Nat)
  | claimWP (v m : Nat)
  | checkP (v m : Nat)
  | scanTP (v m : Nat)
  | scanLP (v m mn i : Nat)
  | scanWP (v m mn : Nat)
  | slotWP (v m : Nat)
  | relP (m : Nat)

/-- Consumer program counter, mirroring LockFreeQueue::pop stage by
stage; doneC x records the value the finished pop returned. -/
inductive CPC where
  | idleC
  | snapReadC
  | snapWriteC (t : Nat)
  | fenceC
  | faaC
  | claimWC (m : Nat)
  | checkC (m : Nat)
  | scanHC (m : Nat)
  | scanLC (m mn i : Nat)
  | scanWC (m mn : Nat)
  | slotRC (m : Nat)
  | relC (m x : Nat)
  | doneC (x : Nat)

/-- Shared state of the lock-free queue plus the control state of every
producer and consumer thread. -/
structure LState where
  head : Nat
  tail : Nat
  lastHead : Nat
  lastTail : Nat
  regHead : Nat → Nat
  regTail : Nat → Nat
  slots : Nat → Nat
  pstate : Nat → PPC
  cstate : Nat → CPC

/-- State right after the LockFreeQueue constructor: all four counters
zero, every registry entry memset to 0xFF (= SENTINEL per 64-bit word),
no thread running an operation. -/
def initL : LState :=
  { head := 0, tail := 0, lastHead := 0, lastTail := 0,
    regHead := fun _ => SENTINEL, regTail := fun _ => SENTINEL,
    slots := fun _ => 0,
    pstate := fun _ => .idleP, cstate := fun _ => .idleC }

/-- Scheduler labels: which thread performs its next shared-memory
access; pstart p v lets idle producer p begin push(v), cstart c lets
idle consumer c begin pop(). -/
inductive Lbl where
  | pstart (p v : Nat)
  | pstep (p : Nat)
  | cstart (c : Nat)
  | cstep (c : Nat)

/-- One interleaving step of the system.  Each case performs exactly one
shared-memory access of LockFreeQueue::push / ::pop (see PPC / CPC).
none means the label is not enabled (no such thread, or nothing to do). -/
def applyLabel (cfg : Cfg) (s : LState) : Lbl → Option LState
  | .pstart p v =>
    if p < cfg.N then
      match s.pstate p with
      | .idleP => some { s with pstate := updf s.pstate p (.snapReadP v) }
      | _ => none
    else none
  | .pstep p =>
    if p < cfg.N then
      match s.pstate p with
      | .idleP => none
      | .snapReadP v =>
        -- read head_ (right-hand side of thr_pos().head = head_)
        some { s with pstate := updf s.pstate p (.snapWriteP v s.head) }
      | .snapWriteP v h =>
        -- thr_pos().head = (the value read)
        some { s with regHead := updf s.regHead p h,
                      pstate := updf s.pstate p (.fenceP v) }
      | .fenceP v =>
        -- __sync_synchronize(): no effect under sequential consistency
        some { s with pstate := updf s.pstate p (.faaP v) }
      | .faaP v =>
        -- __sync_fetch_and_add(&head_, 1) returns the prior value
        some { s with head := s.head + 1,
                      pstate := updf s.pstate p (.claimWP v s.head) }
      | .claimWP v m =>
        -- thr_pos().head = (prior head value)
        some { s with regHead := updf s.regHead p m,
                      pstate := updf s.pstate p (.checkP v m) }
      | .checkP v m =>
        -- while (thr_pos().head >= last_tail_ + Q_SIZE); on entry the
        -- body first calls sched_yield() (no state effect)
        if s.lastTail + cfg.Q ≤ s.regHead p then
          some { s with pstate := updf s.pstate p (.scanTP v m) }
        else
          some { s with pstate := updf s.pstate p (.slotWP v m) }
      | .scanTP v m =>
        -- auto min = tail_
        some { s with pstate := updf s.pstate p (.scanLP v m s.tail 0) }
      | .scanLP v m mn i =>
        -- for (i = 0; i < n_consumers_; ++i) { tmp = thr_p_[i].tail;
        --   if (tmp < min) min = tmp; }
        if i < cfg.M then
          let mn' := if s.regTail i < mn then s.regTail i else mn
          some { s with pstate := updf s.pstate p (.scanLP v m mn' (i + 1)) }
        else
          some { s with pstate := updf s.pstate p (.scanWP v m mn) }
      | .scanWP v m mn =>
        -- last_tail_ = min
        some { s with lastTail := mn, pstate := updf s.pstate p (.checkP v m) }
      | .slotWP v m =>
        -- ptr_array_[thr_pos().head & Q_MASK] = ptr
        some { s with slots := updf s.slots (s.regHead p &&& (cfg.Q - 1)) v,
                      pstate := updf s.pstate p (.relP m) }
      | .relP _ =>
        -- thr_pos().head = ULONG_MAX
        some { s with regHead := updf s.regHead p SENTINEL,
                      pstate := updf s.pstate p .idleP }
    else none
  | .cstart c =>
    if c < cfg.M then
      match s.cstate c with
      | .idleC => some { s with cstate := updf s.cstate c .snapReadC }
      | .doneC _ => some { s with cstate := updf s.cstate c .snapReadC }
      | _ => none
    else none
  | .cstep c =>
    if c < cfg.M then
      match s.cstate c with
      | .idleC => none
      | .doneC _ => none
      | .snapReadC =>
        -- read tail_ (right-hand side of thr_pos().tail = tail_)
        some { s with cstate := updf s.cstate c (.snapWriteC s.tail) }
      | .snapWriteC t =>
        -- thr_pos().tail = (the value read)
        some { s with regTail := updf s.regTail c t,
                      cstate := updf s.cstate c .fenceC }
      | .fenceC =>
        some { s with cstate := updf s.cstate c .faaC }
      | .faaC =>
        -- __sync_fetch_and_add(&tail_, 1)
        some { s with tail := s.tail + 1,
                      cstate := updf s.cstate c (.claimWC s.tail) }
      | .claimWC m =>
        -- thr_pos().tail = (prior tail value)
        some { s with regTail := updf s.regTail c m,
                      cstate := updf s.cstate c (.checkC m) }
      | .checkC m =>
        -- while (thr_pos().tail >= last_head_)
        if s.lastHead ≤ s.regTail c then
          some { s with cstate := updf s.cstate c (.scanHC m) }
        else
          some { s with cstate := updf s.cstate c (.slotRC m) }
      | .scanHC m =>
        -- auto min = head_
        some { s with cstate := updf s.cstate c (.scanLC m s.head 0) }
      | .scanLC m mn i =>
        -- for (i = 0; i < n_producers_; ++i) { tmp = thr_p_[i].head;
        --   if (tmp < min) min = tmp; }
        if i < cfg.N then
          let mn' := if s.regHead i < mn then s.regHead i else mn
          some { s with cstate := updf s.cstate c (.scanLC m mn' (i + 1)) }
        else
          some { s with cstate := updf s.cstate c (.scanWC m mn) }
      | .scanWC m mn =>
        -- last_head_ = min
        some { s with lastHead := mn, cstate := updf s.cstate c (.checkC m) }
      | .slotRC m =>
        -- ret = ptr_array_[thr_pos().tail & Q_MASK]
        let x := s.slots (s.regTail c &&& (cfg.Q - 1))
        some { s with cstate := updf s.cstate c (.relC m x) }
      | .relC _ x =>
        -- thr_pos().tail = ULONG_MAX; return ret
        some { s with regTail := updf s.regTail c SENTINEL,
                      cstate := updf s.cstate c (.doneC x) }
    else none

/-- Run a finite schedule of labels. -/
def runL (cfg : Cfg) (s : LState) : List Lbl → Option LState
  | [] => some s
  | l :: ls =>
    match applyLabel cfg s l with
    | some s' => runL cfg s' ls
    | none => none

/-- A state is reachable when some finite schedule of interleaved
producer/consumer accesses produces it from the freshly constructed
queue. -/
def ReachableL (cfg : Cfg) (s : LState) : Prop :=
  ∃ ls : List Lbl, runL cfg initL ls = some s

/-!
Sequential (uninterfered) functional semantics of the same
LockFreeQueue::push / ::pop code, used for single-producer /
single-consumer reasoning.  With no interference the two registry
stores before and after the fetch-and-add store the same value (the
current head), and one recomputation of last_tail_ / last_head_ already
reaches its fixed point, so a push/pop that is still blocked after one
recomputation spins forever; that divergence is modeled as none.
-/

structure QS where
  head : Nat
  tail : Nat
  lastHead : Nat
  lastTail : Nat
  regHead : Nat → Nat
  regTail : Nat → Nat
  slots : Nat → Nat

/-- Freshly constructed queue, sequential view (same construction as
initL). -/
def initQS : QS :=
  { head := 0, tail := 0, lastHead := 0, lastTail := 0,
    regHead := fun _ => SENTINEL, regTail := fun _ => SENTINEL,
    slots := fun _ => 0 }

/-- The minimum computed by the wait loop of push: auto min = tail_;
for (i = 0; i < n_consumers_; ++i) if (thr_p_[i].tail < min)
min = thr_p_[i].tail. -/
def tailsMin (cfg : Cfg) (tl : Nat) (regTail : Nat → Nat) : Nat :=
  (List.range cfg.M).foldl (fun mn i => if regTail i < mn then regTail i else mn) tl

/-- The minimum computed by the wait loop of pop, over head_ and the
producers' registry heads. -/
def headsMin (cfg : Cfg) (hd : Nat) (regHead : Nat → Nat) : Nat :=
  (List.range cfg.N).foldl (fun mn i => if regHead i < mn then regHead i else mn) hd

/-- Sequential LockFreeQueue::push by producer p: claim m = head_ (both
registry stores write m when uninterfered), wait until
m < last_tail_ + Q_SIZE recomputing last_tail_ at most once, write the
slot, release the registry entry. -/
def pushS (cfg : Cfg) (p : Nat) (q : QS) (v : Nat) : Option QS :=
  let m := q.head
  let q1 : QS := { q with regHead := updf q.regHead p m, head := m + 1 }
  let fin : QS → QS := fun qq =>
    { qq with slots := updf qq.slots (m &&& (cfg.Q - 1)) v,
              regHead := updf qq.regHead p SENTINEL }
  if q1.lastTail + cfg.Q ≤ m then
    let lt := tailsMin cfg q1.tail q1.regTail
    if lt + cfg.Q ≤ m then none
    else some (fin { q1 with lastTail := lt })
  else some (fin q1)

/-- Sequential LockFreeQueue::pop by consumer c. -/
def popS (cfg : Cfg) (c : Nat) (q : QS) : Option (Nat × QS) :=
  let m := q.tail
  let q1 : QS := { q with regTail := updf q.regTail c m, tail := m + 1 }
  let fin : QS → Nat × QS := fun qq =>
    (qq.slots (m &&& (cfg.Q - 1)),
     { qq with regTail := updf qq.regTail c SENTINEL })
  if q1.lastHead ≤ m then
    let lh := headsMin cfg q1.head q1.regHead
    if lh ≤ m then none
    else some (fin { q1 with lastHead := lh })
  else some (fin q1)

/-- Push a whole list of values sequentially (producer p). -/
def pushListS (cfg : Cfg) (p : Nat) : QS → List Nat → Option QS
  | q, [] => some q
  | q, v :: vs =>
    match pushS cfg p q v with
    | some q' => pushListS cfg p q' vs
    | none => none

/-- Pop k values sequentially (consumer c), collecting them in order. -/
def popNS (cfg : Cfg) (c : Nat) : QS → Nat → Option (List Nat × QS)
  | q, 0 => some ([], q)
  | q, k + 1 =>
    match popS cfg c q with
    | some (x, q') =>
      match popNS cfg c q' k with
      | some (l, q'') => some (x :: l, q'')
      | none => none
    | none => none

/-- Push a whole list into the naive queue. -/
def nPushList (Q : Nat) : NQ → List Nat → Option NQ
  | q, [] => some q
  | q, v :: vs =>
    match nPush Q q v with
    | some q' => nPushList Q q' vs
    | none => none

/-- Pop k values from the naive queue, collecting them in order. -/
def nPopN (Q : Nat) : NQ → Nat → Option (List Nat × NQ)
  | q, 0 => some ([], q)
  | q, k + 1 =>
    match nPop Q q with
    | some (x, q') =>
      match nPopN Q q' k with
      | some (l, q'') => some (x :: l, q'')
      | none => none
    | none => none

/-!
Construction and the per-thread registry lookup.
-/

/-- The LockFreeQueue constructor.  Its only failure points are the two
assert() calls on the results of the page-aligned allocations of the
registry (thr_p_) and the slot array (ptr_array_); their outcomes are
the two Bool parameters.  It performs no validation of the capacity or
of the producer/consumer counts. -/
def lfqConstruct (nProd nCons Q : Nat) (allocReg allocArr : Bool) : Option LState :=
  if allocReg && allocArr then some initL else none

/-- Length of the registry allocated by the constructor:
auto n = std::max(n_consumers_, n_producers_). -/
def regLen (nProd nCons : Nat) : Nat := max nCons nProd

/-- The debug assertion in LockFreeQueue::thr_pos():
assert(ThrId() < std::max(n_consumers_, n_producers_)). -/
def thrPosOk (nProd nCons tid : Nat) : Prop := tid < max nCons nProd

instance (nProd nCons tid : Nat) : Decidable (thrPosOk nProd nCons tid) := by
  unfold thrPosOk; infer_instance

/-- Configuration validity in the words of the specification: capacity a
power of two and at least 2, nonzero producers and consumers.  (The
exponent is bounded by q: 2^k = q forces k < q, so the bounded
existential is equivalent to the unbounded one and is decidable.) -/
def specValidCfg (nProd nCons q : Nat) : Prop :=
  (∃ k < q, q = 2 ^ k) ∧ 2 ≤ q ∧ 0 < nProd ∧ 0 < nCons

instance (nProd nCons q : Nat) : Decidable (specValidCfg nProd nCons q) := by
  unfold specValidCfg; infer_instance

/-!
Reachability invariants of the lock-free queue.

A thread's reservation becomes visible at its fetch-and-add; it is
"claimed" from then until the releasing SENTINEL store, and
"unresolved" from the fetch-and-add until its wait-loop check passes.
-/

/-- Reservation held by a producer (from the fetch-and-add to the
SENTINEL release store). -/
def prodClaimVal : PPC → Option Nat
  | .claimWP _ m => some m
  | .checkP _ m => some m
  | .scanTP _ m => some m
  | .scanLP _ m _ _ => some m
  | .scanWP _ m _ => some m
  | .slotWP _ m => some m
  | .relP m => some m
  | _ => none

/-- Producer reservation that has not yet passed the wait-loop check. -/
def prodUnresVal : PPC → Option Nat
  | .claimWP _ m => some m
  | .checkP _ m => some m
  | .scanTP _ m => some m
  | .scanLP _ m _ _ => some m
  | .scanWP _ m _ => some m
  | _ => none

/-- Reservation held by a consumer. -/
def consClaimVal : CPC → Option Nat
  | .claimWC m => some m
  | .checkC m => some m
  | .scanHC m => some m
  | .scanLC m _ _ => some m
  | .scanWC m _ => some m
  | .slotRC m => some m
  | .relC m _ => some m
  | _ => none

/-- Consumer reservation that has not yet passed the wait-loop check. -/
def consUnresVal : CPC → Option Nat
  | .claimWC m => some m
  | .checkC m => some m
  | .scanHC m => some m
  | .scanLC m _ _ => some m
  | .scanWC m _ => some m
  | _ => none

/-- Control-state invariant of one producer, as a function of the
values it can observe: rh = thr_p_[p].head, hd = head_, tl = tail_,
lstH = last_head_, and ccl c = the reservation currently claimed by
consumer c (if any). -/
def prodInvAt (cfg : Cfg) (rh hd tl lstH : Nat) (ccl : Nat → Option Nat) : PPC → Prop
  | .idleP => True
  | .snapReadP _ => True
  | .snapWriteP _ h => h ≤ hd
  | .fenceP _ => rh ≤ hd
  | .faaP _ => rh ≤ hd
  | .claimWP _ m => rh ≤ m ∧ lstH ≤ m
  | .checkP _ m => rh = m ∧ lstH ≤ m
  | .scanTP _ m => rh = m ∧ lstH ≤ m
  | .scanLP _ m mn i =>
    rh = m ∧ lstH ≤ m ∧ mn ≤ tl ∧ (∀ c w, c < i → ccl c = some w → mn ≤ w)
  | .scanWP _ m mn =>
    rh = m ∧ lstH ≤ m ∧ mn ≤ tl ∧ (∀ c w, c < cfg.M → ccl c = some w → mn ≤ w)
  | .slotWP _ m => rh = m ∧ lstH ≤ m
  | .relP m => rh = m ∧ lstH ≤ m

/-- Control-state invariant of one consumer (mirror of prodInvAt). -/
def consInvAt (cfg : Cfg) (rt tl hd lstT : Nat) (pcl : Nat → Option Nat) : CPC → Prop
  | .idleC => True
  | .snapReadC => True
  | .snapWriteC t => t ≤ tl
  | .fenceC => rt ≤ tl
  | .faaC => rt ≤ tl
  | .claimWC m => rt ≤ m ∧ lstT ≤ m
  | .checkC m => rt = m ∧ lstT ≤ m
  | .scanHC m => rt = m ∧ lstT ≤ m
  | .scanLC m mn i =>
    rt = m ∧ lstT ≤ m ∧ mn ≤ hd ∧ (∀ p w, p < i → pcl p = some w → mn ≤ w)
  | .scanWC m mn =>
    rt = m ∧ lstT ≤ m ∧ mn ≤ hd ∧ (∀ p w, p < cfg.N → pcl p = some w → mn ≤ w)
  | .slotRC m => rt = m ∧ lstT ≤ m
  | .relC m _ => rt = m ∧ lstT ≤ m
  | .doneC _ => True

def prodInv (cfg : Cfg) (s : LState) (p : Nat) : Prop :=
  prodInvAt cfg (s.regHead p) s.head s.tail s.lastHead
    (fun c => consClaimVal (s.cstate c)) (s.pstate p)

def consInv (cfg : Cfg) (s : LState) (c : Nat) : Prop :=
  consInvAt cfg (s.regTail c) s.tail s.head s.lastTail
    (fun p => prodClaimVal (s.pstate p)) (s.cstate c)

/-- Global reachability invariant of the lock-free queue. -/
structure QInv (cfg : Cfg) (s : LState) : Prop where
  t1 : s.lastTail ≤ s.tail
  h1 : s.lastHead ≤ s.head
  prods : ∀ p, p < cfg.N → prodInv cfg s p
  conss : ∀ c, c < cfg.M → consInv cfg s c
  ct : ∀ v, v < s.tail → v < s.head ∨ ∃ c, c < cfg.M ∧ consUnresVal (s.cstate c) = some v
  ch : ∀ v, v < s.head → v < s.tail + cfg.Q ∨ ∃ p, p < cfg.N ∧ prodUnresVal (s.pstate p) = some v

/-- No operation is in progress: every producer is idle, every consumer
is idle or has returned from its last pop. -/
def Quiescent (cfg : Cfg) (s : LState) : Prop :=
  (∀ p, p < cfg.N → s.pstate p = .idleP) ∧
  (∀ c, c < cfg.M → s.cstate c = .idleC ∨ ∃ x, s.cstate c = .doneC x)

theorem inv_init (cfg : Cfg) : QInv cfg initL := by
  refine ⟨Nat.le_refl _, Nat.le_refl _, ?_, ?_, ?_, ?_⟩
  · intro p _; simp [prodInv, initL, prodInvAt]
  · intro c _; simp [consInv, initL, consInvAt]
  · intro v hv; simp [initL] at hv
  · intro v hv; simp [initL] at hv

theorem prodInvAt_mono (cfg : Cfg) {rh hd hd' tl tl' lstH : Nat}
    {ccl ccl' : Nat → Option Nat} {pc : PPC}
    (h : prodInvAt cfg rh hd tl lstH ccl pc) (hh : hd ≤ hd') (ht : tl ≤ tl')
    (hc : ∀ c w, ccl' c = some w → ccl c = some w ∨ tl ≤ w) :
    prodInvAt cfg rh hd' tl' lstH ccl' pc := by
  cases pc <;> simp only [prodInvAt] at h ⊢
  · exact Nat.le_trans h hh
  · exact Nat.le_trans h hh
  · exact Nat.le_trans h hh
  · exact h
  · exact h
  · exact h
  · obtain ⟨h1, h2, h3, h4⟩ := h
    refine ⟨h1, h2, Nat.le_trans h3 ht, ?_⟩
    intro c w hci hw
    rcases hc c w hw with hold | hge
    · exact h4 c w hci hold
    · exact Nat.le_trans h3 hge
  · obtain ⟨h1, h2, h3, h4⟩ := h
    refine ⟨h1, h2, Nat.le_trans h3 ht, ?_⟩
    intro c w hci hw
    rcases hc c w hw with hold | hge
    · exact h4 c w hci hold
    · exact Nat.le_trans h3 hge
  · exact h
  · exact h

theorem consInvAt_mono (cfg : Cfg) {rt tl tl' hd hd' lstT : Nat}
    {pcl pcl' : Nat → Option Nat} {pc : CPC}
    (h : consInvAt cfg rt tl hd lstT pcl pc) (ht : tl ≤ tl') (hh : hd ≤ hd')
    (hp : ∀ q w, pcl' q = some w → pcl q = some w ∨ hd ≤ w) :
    consInvAt cfg rt tl' hd' lstT pcl' pc := by
  cases pc <;> simp only [consInvAt] at h ⊢
  · exact Nat.le_trans h ht
  · exact Nat.le_trans h ht
  · exact Nat.le_trans h ht
  · exact h
  · exact h
  · exact h
  · obtain ⟨h1, h2, h3, h4⟩ := h
    refine ⟨h1, h2, Nat.le_trans h3 hh, ?_⟩
    intro q w hqi hw
    rcases hp q w hw with hold | hge
    · exact h4 q w hqi hold
    · exact Nat.le_trans h3 hge
  · obtain ⟨h1, h2, h3, h4⟩ := h
    refine ⟨h1, h2, Nat.le_trans h3 hh, ?_⟩
    intro q w hqi hw
    rcases hp q w hw with hold | hge
    · exact h4 q w hqi hold
    · exact Nat.le_trans h3 hge
  · exact h
  · exact h

theorem prodInvAt_newLstH (cfg : Cfg) {rh hd tl lstH mn : Nat}
    {ccl : Nat → Option Nat} {pc : PPC}
    (h : prodInvAt cfg rh hd tl lstH ccl pc)
    (hb : ∀ w, prodClaimVal pc = some w → mn ≤ w) :
    prodInvAt cfg rh hd tl mn ccl pc := by
  cases pc <;> simp only [prodInvAt, prodClaimVal] at h hb ⊢
  · exact h
  · exact h
  · exact h
  · exact ⟨h.1, hb _ rfl⟩
  · exact ⟨h.1, hb _ rfl⟩
  · exact ⟨h.1, hb _ rfl⟩
  · exact ⟨h.1, hb _ rfl, h.2.2.1, h.2.2.2⟩
  · exact ⟨h.1, hb _ rfl, h.2.2.1, h.2.2.2⟩
  · exact ⟨h.1, hb _ rfl⟩
  · exact ⟨h.1, hb _ rfl⟩

theorem consInvAt_newLstT (cfg : Cfg) {rt tl hd lstT mn : Nat}
    {pcl : Nat → Option Nat} {pc : CPC}
    (h : consInvAt cfg rt tl hd lstT pcl pc)
    (hb : ∀ w, consClaimVal pc = some w → mn ≤ w) :
    consInvAt cfg rt tl hd mn pcl pc := by
  cases pc <;> simp only [consInvAt, consClaimVal] at h hb ⊢
  · exact h
  · exact h
  · exact h
  · exact ⟨h.1, hb _ rfl⟩
  · exact ⟨h.1, hb _ rfl⟩
  · exact ⟨h.1, hb _ rfl⟩
  · exact ⟨h.1, hb _ rfl, h.2.2.1, h.2.2.2⟩
  · exact ⟨h.1, hb _ rfl, h.2.2.1, h.2.2.2⟩
  · exact ⟨h.1, hb _ rfl⟩
  · exact ⟨h.1, hb _ rfl⟩

/-- A claimed consumer reservation bounds that consumer's registry entry
from below (the entry holds either the pre-claim snapshot, which is
smaller, or the reservation itself). -/
theorem consClaim_regTail (cfg : Cfg) (s : LState) (c : Nat)
    (h : consInv cfg s c) :
    ∀ w, consClaimVal (s.cstate c) = some w → s.regTail c ≤ w := by
  intro w hw
  unfold consInv at h
  cases hcc : s.cstate c <;> rw [hcc] at h hw <;>
    simp only [consClaimVal, Option.some.injEq] at hw <;>
    simp only [consInvAt] at h <;>
    first
      | (subst hw; (first | exact h.1 | exact Nat.le_of_eq h.1))
      | cases hw

/-- Mirror of consClaim_regTail for producers. -/
theorem prodClaim_regHead (cfg : Cfg) (s : LState) (p : Nat)
    (h : prodInv cfg s p) :
    ∀ w, prodClaimVal (s.pstate p) = some w → s.regHead p ≤ w := by
  intro w hw
  unfold prodInv at h
  cases hcc : s.pstate p <;> rw [hcc] at h hw <;>
    simp only [prodClaimVal, Option.some.injEq] at hw <;>
    simp only [prodInvAt] at h <;>
    first
      | (subst hw; (first | exact h.1 | exact Nat.le_of_eq h.1))
      | cases hw

/-- Transfer an unresolved-producer witness across a program-counter
update that does not change the unresolved value at position p. -/
theorem unresP_transfer {st : Nat → PPC} {p : Nat} {pc' : PPC}
    (hsame : prodUnresVal pc' = prodUnresVal (st p)) :
    ∀ q v, prodUnresVal (st q) = some v →
      prodUnresVal (updf st p pc' q) = some v := by
  intro q v h
  by_cases hqp : q = p
  · subst hqp; rw [updf_same, hsame]; exact h
  · rw [updf_other _ _ _ hqp]; exact h

/-- Mirror of unresP_transfer for consumers. -/
theorem unresC_transfer {st : Nat → CPC} {c : Nat} {pc' : CPC}
    (hsame : consUnresVal pc' = consUnresVal (st c)) :
    ∀ q v, consUnresVal (st q) = some v →
      consUnresVal (updf st c pc' q) = some v := by
  intro q v h
  by_cases hqc : q = c
  · subst hqc; rw [updf_same, hsame]; exact h
  · rw [updf_other _ _ _ hqc]; exact h

theorem inv_pstart (cfg : Cfg) {s s' : LState} {p v : Nat}
    (h : applyLabel cfg s (.pstart p v) = some s') (hI : QInv cfg s) : QInv cfg s' := by
  obtain ⟨hT1, hH1, hP, hC, hCT, hCH⟩ := hI
  by_cases hp : p < cfg.N
  case neg => simp [applyLabel, hp] at h
  cases hpc : s.pstate p with
  | idleP =>
    simp only [applyLabel, hp, if_true, hpc] at h
    rw [Option.some.injEq] at h
    subst h
    refine ⟨hT1, hH1, ?_, ?_, hCT, ?_⟩
    · intro q hq
      by_cases hqp : q = p
      · subst hqp
        simp only [prodInv, updf_same]
        simp [prodInvAt]
      · simp only [prodInv, updf_other _ _ _ hqp]
        exact hP q hq
    · intro c hc
      simp only [consInv]
      refine consInvAt_mono cfg (hC c hc) le_rfl le_rfl ?_
      intro q w hw
      by_cases hqp : q = p
      · subst hqp; rw [updf_same] at hw; simp [prodClaimVal] at hw
      · rw [updf_other _ _ _ hqp] at hw; exact Or.inl hw
    · intro w hw
      rcases hCH w hw with hlt | ⟨q0, hq0, hval⟩
      · exact Or.inl hlt
      · exact Or.inr ⟨q0, hq0, unresP_transfer (by simp [hpc, prodUnresVal]) q0 w hval⟩
  | snapReadP v0 => simp [applyLabel, hp, hpc] at h
  | snapWriteP v0 h0 => simp [applyLabel, hp, hpc] at h
  | fenceP v0 => simp [applyLabel, hp, hpc] at h
  | faaP v0 => simp [applyLabel, hp, hpc] at h
  | claimWP v0 m => simp [applyLabel, hp, hpc] at h
  | checkP v0 m => simp [applyLabel, hp, hpc] at h
  | scanTP v0 m => simp [applyLabel, hp, hpc] at h
  | scanLP v0 m mn i => simp [applyLabel, hp, hpc] at h
  | scanWP v0 m mn => simp [applyLabel, hp, hpc] at h
  | slotWP v0 m => simp [applyLabel, hp, hpc] at h
  | relP m => simp [applyLabel, hp, hpc] at h

theorem inv_cstart (cfg : Cfg) {s s' : LState} {c : Nat}
    (h : applyLabel cfg s (.cstart c) = some s') (hI : QInv cfg s) : QInv cfg s' := by
  obtain ⟨hT1, hH1, hP, hC, hCT, hCH⟩ := hI
  by_cases hc : c < cfg.M
  case neg => simp [applyLabel, hc] at h
  have main : consUnresVal (s.cstate c) = none →
      s' = { s with cstate := updf s.cstate c .snapReadC } →
      QInv cfg s' := by
    intro hnone he
    subst he
    refine ⟨hT1, hH1, ?_, ?_, ?_, hCH⟩
    · intro q hq
      simp only [prodInv]
      refine prodInvAt_mono cfg (hP q hq) le_rfl le_rfl ?_
      intro d w hw
      by_cases hdc : d = c
      · subst hdc; rw [updf_same] at hw; simp [consClaimVal] at hw
      · rw [updf_other _ _ _ hdc] at hw; exact Or.inl hw
    · intro d hd
      by_cases hdc : d = c
      · subst hdc
        simp only [consInv, updf_same]
        simp [consInvAt]
      · simp only [consInv, updf_other _ _ _ hdc]
        exact hC d hd
    · intro w hw
      rcases hCT w hw with hlt | ⟨d0, hd0, hval⟩
      · exact Or.inl hlt
      · refine Or.inr ⟨d0, hd0, ?_⟩
        exact unresC_transfer (by rw [hnone]; rfl) d0 w hval
  cases hcc : s.cstate c with
  | idleC =>
    simp only [applyLabel, hc, if_true, hcc] at h
    rw [Option.some.injEq] at h
    exact main (by simp [hcc, consUnresVal]) h.symm
  | doneC x =>
    simp only [applyLabel, hc, if_true, hcc] at h
    rw [Option.some.injEq] at h
    exact main (by simp [hcc, consUnresVal]) h.symm
  | snapReadC => simp [applyLabel, hc, hcc] at h
  | snapWriteC t => simp [applyLabel, hc, hcc] at h
  | fenceC => simp [applyLabel, hc, hcc] at h
  | faaC => simp [applyLabel, hc, hcc] at h
  | claimWC m => simp [applyLabel, hc, hcc] at h
  | checkC m => simp [applyLabel, hc, hcc] at h
  | scanHC m => simp [applyLabel, hc, hcc] at h
  | scanLC m mn i => simp [applyLabel, hc, hcc] at h
  | scanWC m mn => simp [applyLabel, hc, hcc] at h
  | slotRC m => simp [applyLabel, hc, hcc] at h
  | relC m x => simp [applyLabel, hc, hcc] at h

theorem unresP_transfer_ne {st : Nat → PPC} {p : Nat} {pc' : PPC} :
    ∀ q v, q ≠ p → prodUnresVal (st q) = some v →
      prodUnresVal (updf st p pc' q) = some v := by
  intro q v hne hval
  rw [updf_other _ _ _ hne]
  exact hval

theorem unresC_transfer_ne {st : Nat → CPC} {c : Nat} {pc' : CPC} :
    ∀ q v, q ≠ c → consUnresVal (st q) = some v →
      consUnresVal (updf st c pc' q) = some v := by
  intro q v hne hval
  rw [updf_other _ _ _ hne]
  exact hval

/-- Producer component of the invariant after updating producer p's
program counter, when no other producer-visible field changes. -/
theorem prods_pupd (cfg : Cfg) {s : LState} {p : Nat} {pc' : PPC}
    (hP : ∀ q, q < cfg.N → prodInv cfg s q)
    (hself : prodInvAt cfg (s.regHead p) s.head s.tail s.lastHead
      (fun c => consClaimVal (s.cstate c)) pc') :
    ∀ q, q < cfg.N → prodInvAt cfg (s.regHead q) s.head s.tail s.lastHead
      (fun c => consClaimVal (s.cstate c)) (updf s.pstate p pc' q) := by
  intro q hq
  by_cases hqp : q = p
  · subst hqp
    rw [updf_same]
    exact hself
  · rw [updf_other _ _ _ hqp]
    exact hP q hq

/-- Variant of prods_pupd for steps that also store rv into producer p's
registry entry. -/
theorem prods_pupd_reg (cfg : Cfg) {s : LState} {p rv : Nat} {pc' : PPC}
    (hP : ∀ q, q < cfg.N → prodInv cfg s q)
    (hself : prodInvAt cfg rv s.head s.tail s.lastHead
      (fun c => consClaimVal (s.cstate c)) pc') :
    ∀ q, q < cfg.N → prodInvAt cfg (updf s.regHead p rv q) s.head s.tail s.lastHead
      (fun c => consClaimVal (s.cstate c)) (updf s.pstate p pc' q) := by
  intro q hq
  by_cases hqp : q = p
  · subst hqp
    rw [updf_same, updf_same]
    exact hself
  · rw [updf_other _ _ _ hqp, updf_other _ _ _ hqp]
    exact hP q hq

/-- Consumer components survive a producer program-counter update whose
new claim (if any) is inherited from the producer's old claim. -/
theorem claims_pupd (cfg : Cfg) {s : LState} {p : Nat} {pc' : PPC}
    (hcl : ∀ w, prodClaimVal pc' = some w → prodClaimVal (s.pstate p) = some w)
    (hC : ∀ c, c < cfg.M → consInv cfg s c) :
    ∀ c, c < cfg.M → consInvAt cfg (s.regTail c) s.tail s.head s.lastTail
      (fun q => prodClaimVal (updf s.pstate p pc' q)) (s.cstate c) := by
  intro c hc
  refine consInvAt_mono cfg (hC c hc) le_rfl le_rfl ?_
  intro q w hw
  by_cases hqp : q = p
  · subst hqp
    rw [updf_same] at hw
    exact Or.inl (hcl w hw)
  · rw [updf_other _ _ _ hqp] at hw
    exact Or.inl hw

/-- The counting invariant ch survives a producer program-counter update
that does not change the producer's unresolved value. -/
theorem ch_pupd (cfg : Cfg) {s : LState} {p : Nat} {pc' : PPC}
    (hsame : prodUnresVal pc' = prodUnresVal (s.pstate p))
    (hCH : ∀ v, v < s.head → v < s.tail + cfg.Q ∨
      ∃ q, q < cfg.N ∧ prodUnresVal (s.pstate q) = some v) :
    ∀ v, v < s.head → v < s.tail + cfg.Q ∨
      ∃ q, q < cfg.N ∧ prodUnresVal (updf s.pstate p pc' q) = some v := by
  intro w hw
  rcases hCH w hw with hlt | ⟨q0, hq0, hval⟩
  · exact Or.inl hlt
  · exact Or.inr ⟨q0, hq0, unresP_transfer hsame q0 w hval⟩

/-- Producer components survive a consumer program-counter update whose
new claim (if any) is inherited from the consumer's old claim. -/
theorem prods_cupd (cfg : Cfg) {s : LState} {c : Nat} {cc' : CPC}
    (hcl : ∀ w, consClaimVal cc' = some w → consClaimVal (s.cstate c) = some w)
    (hP : ∀ q, q < cfg.N → prodInv cfg s q) :
    ∀ q, q < cfg.N → prodInvAt cfg (s.regHead q) s.head s.tail s.lastHead
      (fun d => consClaimVal (updf s.cstate c cc' d)) (s.pstate q) := by
  intro q hq
  refine prodInvAt_mono cfg (hP q hq) le_rfl le_rfl ?_
  intro d w hw
  by_cases hdc : d = c
  · subst hdc
    rw [updf_same] at hw
    exact Or.inl (hcl w hw)
  · rw [updf_other _ _ _ hdc] at hw
    exact Or.inl hw

/-- Consumer component of the invariant after updating consumer c's
program counter, when no other consumer-visible field changes. -/
theorem conss_cupd (cfg : Cfg) {s : LState} {c : Nat} {cc' : CPC}
    (hC : ∀ d, d < cfg.M → consInv cfg s d)
    (hself : consInvAt cfg (s.regTail c) s.tail s.head s.lastTail
      (fun p => prodClaimVal (s.pstate p)) cc') :
    ∀ d, d < cfg.M → consInvAt cfg (s.regTail d) s.tail s.head s.lastTail
      (fun p => prodClaimVal (s.pstate p)) (updf s.cstate c cc' d) := by
  intro d hd
  by_cases hdc : d = c
  · subst hdc
    rw [updf_same]
    exact hself
  · rw [updf_other _ _ _ hdc]
    exact hC d hd

/-- Variant of conss_cupd for steps that also store rv into consumer c's
registry entry. -/
theorem conss_cupd_reg (cfg : Cfg) {s : LState} {c rv : Nat} {cc' : CPC}
    (hC : ∀ d, d < cfg.M → consInv cfg s d)
    (hself : consInvAt cfg rv s.tail s.head s.lastTail
      (fun p => prodClaimVal (s.pstate p)) cc') :
    ∀ d, d < cfg.M → consInvAt cfg (updf s.regTail c rv d) s.tail s.head s.lastTail
      (fun p => prodClaimVal (s.pstate p)) (updf s.cstate c cc' d) := by
  intro d hd
  by_cases hdc : d = c
  · subst hdc
    rw [updf_same, updf_same]
    exact hself
  · rw [updf_other _ _ _ hdc, updf_other _ _ _ hdc]
    exact hC d hd

/-- The counting invariant ct survives a consumer program-counter update
that does not change the consumer's unresolved value. -/
theorem ct_cupd (cfg : Cfg) {s : LState} {c : Nat} {cc' : CPC}
    (hsame : consUnresVal cc' = consUnresVal (s.cstate c))
    (hCT : ∀ v, v < s.tail → v < s.head ∨
      ∃ d, d < cfg.M ∧ consUnresVal (s.cstate d) = some v) :
    ∀ v, v < s.tail → v < s.head ∨
      ∃ d, d < cfg.M ∧ consUnresVal (updf s.cstate c cc' d) = some v := by
  intro w hw
  rcases hCT w hw with hlt | ⟨d0, hd0, hval⟩
  · exact Or.inl hlt
  · exact Or.inr ⟨d0, hd0, unresC_transfer hsame d0 w hval⟩

/-- Preservation of the invariant by the read of head_ in push. -/
theorem inv_pstep_snapReadP (cfg : Cfg) {s : LState} {p : Nat} (v : Nat)
    (hpc : s.pstate p = .snapReadP v) (hI : QInv cfg s) :
    QInv cfg { s with pstate := updf s.pstate p (.snapWriteP v s.head) } := by
  obtain ⟨hT1, hH1, hP, hC, hCT, hCH⟩ := hI
  refine ⟨hT1, hH1, ?_, ?_, hCT, ?_⟩
  · exact prods_pupd cfg hP le_rfl
  · exact claims_pupd cfg (fun w hw => by simp [prodClaimVal] at hw) hC
  · exact ch_pupd cfg (by simp [hpc, prodUnresVal]) hCH

/-- Preservation of the invariant by the pre-fence registry store in
push. -/
theorem inv_pstep_snapWriteP (cfg : Cfg) {s : LState} {p : Nat} (v h0 : Nat)
    (hp : p < cfg.N) (hpc : s.pstate p = .snapWriteP v h0) (hI : QInv cfg s) :
    QInv cfg { s with regHead := updf s.regHead p h0,
                      pstate := updf s.pstate p (.fenceP v) } := by
  obtain ⟨hT1, hH1, hP, hC, hCT, hCH⟩ := hI
  have hPp := hP p hp
  unfold prodInv at hPp
  rw [hpc] at hPp
  simp only [prodInvAt] at hPp
  refine ⟨hT1, hH1, ?_, ?_, hCT, ?_⟩
  · exact prods_pupd_reg cfg hP hPp
  · exact claims_pupd cfg (fun w hw => by simp [prodClaimVal] at hw) hC
  · exact ch_pupd cfg (by simp [hpc, prodUnresVal]) hCH

/-- Preservation of the invariant by the memory fence in push. -/
theorem inv_pstep_fenceP (cfg : Cfg) {s : LState} {p : Nat} (v : Nat)
    (hp : p < cfg.N) (hpc : s.pstate p = .fenceP v) (hI : QInv cfg s) :
    QInv cfg { s with pstate := updf s.pstate p (.faaP v) } := by
  obtain ⟨hT1, hH1, hP, hC, hCT, hCH⟩ := hI
  have hPp := hP p hp
  unfold prodInv at hPp
  rw [hpc] at hPp
  simp only [prodInvAt] at hPp
  refine ⟨hT1, hH1, ?_, ?_, hCT, ?_⟩
  · exact prods_pupd cfg hP hPp
  · exact claims_pupd cfg (fun w hw => by simp [prodClaimVal] at hw) hC
  · exact ch_pupd cfg (by simp [hpc, prodUnresVal]) hCH

/-- Preservation of the invariant by the fetch-and-add of head_ in
push. -/
theorem inv_pstep_faaP (cfg : Cfg) {s : LState} {p : Nat} (v : Nat)
    (hp : p < cfg.N) (hpc : s.pstate p = .faaP v) (hI : QInv cfg s) :
    QInv cfg { s with head := s.head + 1,
                      pstate := updf s.pstate p (.claimWP v s.head) } := by
  obtain ⟨hT1, hH1, hP, hC, hCT, hCH⟩ := hI
  have hPp := hP p hp
  unfold prodInv at hPp
  rw [hpc] at hPp
  simp only [prodInvAt] at hPp
  refine ⟨hT1, Nat.le_succ_of_le hH1, ?_, ?_, ?_, ?_⟩
  · intro q hq
    by_cases hqp : q = p
    · subst hqp
      simp only [prodInv, updf_same]
      simp only [prodInvAt]
      exact ⟨hPp, hH1⟩
    · simp only [prodInv, updf_other _ _ _ hqp]
      exact prodInvAt_mono cfg (hP q hq) (Nat.le_succ _) le_rfl (fun c w hw => Or.inl hw)
  · intro c hc
    simp only [consInv]
    refine consInvAt_mono cfg (hC c hc) le_rfl (Nat.le_succ _) ?_
    intro q w hw
    by_cases hqp : q = p
    · subst hqp
      rw [updf_same] at hw
      simp only [prodClaimVal, Option.some.injEq] at hw
      exact Or.inr (Nat.le_of_eq hw)
    · rw [updf_other _ _ _ hqp] at hw
      exact Or.inl hw
  · intro w hw
    rcases hCT w hw with hlt | hwit
    · exact Or.inl (Nat.lt_succ_of_lt hlt)
    · exact Or.inr hwit
  · intro w hw
    rcases Nat.lt_or_ge w s.head with hlt | hge
    · rcases hCH w hlt with hlt2 | ⟨q0, hq0, hval⟩
      · exact Or.inl hlt2
      · have hq0p : q0 ≠ p := by
          intro he
          subst he
          rw [hpc] at hval
          simp [prodUnresVal] at hval
        exact Or.inr ⟨q0, hq0, unresP_transfer_ne q0 w hq0p hval⟩
    · have hwh : w = s.head := by
        have hws : w < s.head + 1 := hw
        omega
      subst hwh
      exact Or.inr ⟨p, hp, by simp [updf_same, prodUnresVal]⟩

/-- Preservation of the invariant by the post-fetch-and-add registry
store in push. -/
theorem inv_pstep_claimWP (cfg : Cfg) {s : LState} {p : Nat} (v m : Nat)
    (hp : p < cfg.N) (hpc : s.pstate p = .claimWP v m) (hI : QInv cfg s) :
    QInv cfg { s with regHead := updf s.regHead p m,
                      pstate := updf s.pstate p (.checkP v m) } := by
  obtain ⟨hT1, hH1, hP, hC, hCT, hCH⟩ := hI
  have hPp := hP p hp
  unfold prodInv at hPp
  rw [hpc] at hPp
  simp only [prodInvAt] at hPp
  refine ⟨hT1, hH1, ?_, ?_, hCT, ?_⟩
  · refine prods_pupd_reg cfg hP ?_
    exact ⟨rfl, hPp.2⟩
  · refine claims_pupd cfg ?_ hC
    intro w hw
    rw [hpc]
    simp only [prodClaimVal, Option.some.injEq] at hw ⊢
    exact hw
  · exact ch_pupd cfg (by simp [hpc, prodUnresVal]) hCH

/-- Preservation of the invariant by a passing wait-loop check in push
(the producer enters the scan). -/
theorem inv_pstep_checkP_scan (cfg : Cfg) {s : LState} {p : Nat} (v m : Nat)
    (hp : p < cfg.N) (hpc : s.pstate p = .checkP v m) (hI : QInv cfg s) :
    QInv cfg { s with pstate := updf s.pstate p (.scanTP v m) } := by
  obtain ⟨hT1, hH1, hP, hC, hCT, hCH⟩ := hI
  have hPp := hP p hp
  unfold prodInv at hPp
  rw [hpc] at hPp
  simp only [prodInvAt] at hPp
  refine ⟨hT1, hH1, ?_, ?_, hCT, ?_⟩
  · exact prods_pupd cfg hP hPp
  · exact claims_pupd cfg (fun w hw => by rw [hpc]; simpa [prodClaimVal] using hw) hC
  · exact ch_pupd cfg (by simp [hpc, prodUnresVal]) hCH

/-- Preservation of the invariant by a failing wait-loop check in push
(the producer proceeds to the slot write; its reservation becomes
resolved and lies below last_tail_ + Q). -/
theorem inv_pstep_checkP_write (cfg : Cfg) {s : LState} {p : Nat} (v m : Nat)
    (hp : p < cfg.N) (hpc : s.pstate p = .checkP v m)
    (hg : ¬ s.lastTail + cfg.Q ≤ s.regHead p) (hI : QInv cfg s) :
    QInv cfg { s with pstate := updf s.pstate p (.slotWP v m) } := by
  obtain ⟨hT1, hH1, hP, hC, hCT, hCH⟩ := hI
  have hPp := hP p hp
  unfold prodInv at hPp
  rw [hpc] at hPp
  simp only [prodInvAt] at hPp
  refine ⟨hT1, hH1, ?_, ?_, hCT, ?_⟩
  · exact prods_pupd cfg hP hPp
  · exact claims_pupd cfg (fun w hw => by rw [hpc]; simpa [prodClaimVal] using hw) hC
  · intro w hw
    rcases hCH w hw with hlt | ⟨q0, hq0, hval⟩
    · exact Or.inl hlt
    · by_cases hq0p : q0 = p
      · subst hq0p
        rw [hpc] at hval
        simp only [prodUnresVal, Option.some.injEq] at hval
        have hmlt : m < s.lastTail + cfg.Q := by
          rw [hPp.1] at hg
          omega
        refine Or.inl ?_
        show w < s.tail + cfg.Q
        omega
      · exact Or.inr ⟨q0, hq0, unresP_transfer_ne q0 w hq0p hval⟩

/-- Preservation of the invariant by the read of tail_ that starts the
scan in push. -/
theorem inv_pstep_scanTP (cfg : Cfg) {s : LState} {p : Nat} (v m : Nat)
    (hp : p < cfg.N) (hpc : s.pstate p = .scanTP v m) (hI : QInv cfg s) :
    QInv cfg { s with pstate := updf s.pstate p (.scanLP v m s.tail 0) } := by
  obtain ⟨hT1, hH1, hP, hC, hCT, hCH⟩ := hI
  have hPp := hP p hp
  unfold prodInv at hPp
  rw [hpc] at hPp
  simp only [prodInvAt] at hPp
  refine ⟨hT1, hH1, ?_, ?_, hCT, ?_⟩
  · refine prods_pupd cfg hP ?_
    exact ⟨hPp.1, hPp.2, le_rfl, fun c w hci _ => absurd hci (Nat.not_lt_zero c)⟩
  · exact claims_pupd cfg (fun w hw => by rw [hpc]; simpa [prodClaimVal] using hw) hC
  · exact ch_pupd cfg (by simp [hpc, prodUnresVal]) hCH

/-- Preservation of the invariant by one registry read of the scan loop
in push. -/
theorem inv_pstep_scanLP_step (cfg : Cfg) {s : LState} {p : Nat} (v m mn i : Nat)
    (hp : p < cfg.N) (hpc : s.pstate p = .scanLP v m mn i) (hg : i < cfg.M)
    (hI : QInv cfg s) :
    QInv cfg { s with pstate := updf s.pstate p (.scanLP v m (if s.regTail i < mn then s.regTail i else mn) (i + 1)) } := by
  obtain ⟨hT1, hH1, hP, hC, hCT, hCH⟩ := hI
  have hPp := hP p hp
  unfold prodInv at hPp
  rw [hpc] at hPp
  simp only [prodInvAt] at hPp
  have hle1 : (if s.regTail i < mn then s.regTail i else mn) ≤ s.regTail i := by
    split <;> omega
  have hle2 : (if s.regTail i < mn then s.regTail i else mn) ≤ mn := by
    split <;> omega
  refine ⟨hT1, hH1, ?_, ?_, hCT, ?_⟩
  · refine prods_pupd cfg hP ?_
    refine ⟨hPp.1, hPp.2.1, Nat.le_trans hle2 hPp.2.2.1, ?_⟩
    intro c w hci hw
    rcases Nat.lt_or_ge c i with hci' | hci'
    · exact Nat.le_trans hle2 (hPp.2.2.2 c w hci' hw)
    · have hcieq : c = i := by omega
      subst hcieq
      have hrt : s.regTail c ≤ w := consClaim_regTail cfg s c (hC c hg) w hw
      exact Nat.le_trans hle1 hrt
  · exact claims_pupd cfg (fun w hw => by rw [hpc]; simpa [prodClaimVal] using hw) hC
  · exact ch_pupd cfg (by simp [hpc, prodUnresVal]) hCH

/-- Preservation of the invariant when the scan loop in push runs out of
consumers. -/
theorem inv_pstep_scanLP_done (cfg : Cfg) {s : LState} {p : Nat} (v m mn i : Nat)
    (hp : p < cfg.N) (hpc : s.pstate p = .scanLP v m mn i) (hg : ¬ i < cfg.M)
    (hI : QInv cfg s) :
    QInv cfg { s with pstate := updf s.pstate p (.scanWP v m mn) } := by
  obtain ⟨hT1, hH1, hP, hC, hCT, hCH⟩ := hI
  have hPp := hP p hp
  unfold prodInv at hPp
  rw [hpc] at hPp
  simp only [prodInvAt] at hPp
  refine ⟨hT1, hH1, ?_, ?_, hCT, ?_⟩
  · refine prods_pupd cfg hP ?_
    refine ⟨hPp.1, hPp.2.1, hPp.2.2.1, ?_⟩
    intro c w hcM hw
    have hci : c < i := by omega
    exact hPp.2.2.2 c w hci hw
  · exact claims_pupd cfg (fun w hw => by rw [hpc]; simpa [prodClaimVal] using hw) hC
  · exact ch_pupd cfg (by simp [hpc, prodUnresVal]) hCH

/-- Preservation of the invariant by the store of the scanned minimum
into last_tail_ in push. -/
theorem inv_pstep_scanWP (cfg : Cfg) {s : LState} {p : Nat} (v m mn : Nat)
    (hp : p < cfg.N) (hpc : s.pstate p = .scanWP v m mn) (hI : QInv cfg s) :
    QInv cfg { s with lastTail := mn, pstate := updf s.pstate p (.checkP v m) } := by
  obtain ⟨hT1, hH1, hP, hC, hCT, hCH⟩ := hI
  have hPp := hP p hp
  unfold prodInv at hPp
  rw [hpc] at hPp
  simp only [prodInvAt] at hPp
  refine ⟨hPp.2.2.1, hH1, ?_, ?_, hCT, ?_⟩
  · refine prods_pupd cfg hP ?_
    exact ⟨hPp.1, hPp.2.1⟩
  · intro c hc
    have hbase : consInvAt cfg (s.regTail c) s.tail s.head s.lastTail
        (fun q => prodClaimVal (updf s.pstate p (PPC.checkP v m) q)) (s.cstate c) :=
      claims_pupd cfg (fun w hw => by rw [hpc]; simpa [prodClaimVal] using hw) hC c hc
    exact consInvAt_newLstT cfg hbase (fun w hw => hPp.2.2.2 c w hc hw)
  · exact ch_pupd cfg (by simp [hpc, prodUnresVal]) hCH

/-- Preservation of the invariant by the slot write in push. -/
theorem inv_pstep_slotWP (cfg : Cfg) {s : LState} {p : Nat} (v m : Nat)
    (hp : p < cfg.N) (hpc : s.pstate p = .slotWP v m) (hI : QInv cfg s) :
    QInv cfg { s with slots := updf s.slots (s.regHead p &&& (cfg.Q - 1)) v,
                      pstate := updf s.pstate p (.relP m) } := by
  obtain ⟨hT1, hH1, hP, hC, hCT, hCH⟩ := hI
  have hPp := hP p hp
  unfold prodInv at hPp
  rw [hpc] at hPp
  simp only [prodInvAt] at hPp
  refine ⟨hT1, hH1, ?_, ?_, hCT, ?_⟩
  · exact prods_pupd cfg hP hPp
  · exact claims_pupd cfg (fun w hw => by rw [hpc]; simpa [prodClaimVal] using hw) hC
  · exact ch_pupd cfg (by simp [hpc, prodUnresVal]) hCH

/-- Preservation of the invariant by the SENTINEL release store that
ends push. -/
theorem inv_pstep_relP (cfg : Cfg) {s : LState} {p : Nat} (m : Nat)
    (hpc : s.pstate p = .relP m) (hI : QInv cfg s) :
    QInv cfg { s with regHead := updf s.regHead p SENTINEL,
                      pstate := updf s.pstate p .idleP } := by
  obtain ⟨hT1, hH1, hP, hC, hCT, hCH⟩ := hI
  refine ⟨hT1, hH1, ?_, ?_, hCT, ?_⟩
  · exact prods_pupd_reg cfg hP trivial
  · exact claims_pupd cfg (fun w hw => by simp [prodClaimVal] at hw) hC
  · exact ch_pupd cfg (by simp [hpc, prodUnresVal]) hCH

theorem inv_pstep (cfg : Cfg) {s s' : LState} {p : Nat}
    (h : applyLabel cfg s (.pstep p) = some s') (hI : QInv cfg s) : QInv cfg s' := by
  by_cases hp : p < cfg.N
  case neg => simp [applyLabel, hp] at h
  cases hpc : s.pstate p with
  | idleP => simp [applyLabel, hp, hpc] at h
  | snapReadP v =>
    simp only [applyLabel, hp, if_true, hpc] at h
    rw [Option.some.injEq] at h
    subst h
    exact inv_pstep_snapReadP cfg v hpc hI
  | snapWriteP v h0 =>
    simp only [applyLabel, hp, if_true, hpc] at h
    rw [Option.some.injEq] at h
    subst h
    exact inv_pstep_snapWriteP cfg v h0 hp hpc hI
  | fenceP v =>
    simp only [applyLabel, hp, if_true, hpc] at h
    rw [Option.some.injEq] at h
    subst h
    exact inv_pstep_fenceP cfg v hp hpc hI
  | faaP v =>
    simp only [applyLabel, hp, if_true, hpc] at h
    rw [Option.some.injEq] at h
    subst h
    exact inv_pstep_faaP cfg v hp hpc hI
  | claimWP v m =>
    simp only [applyLabel, hp, if_true, hpc] at h
    rw [Option.some.injEq] at h
    subst h
    exact inv_pstep_claimWP cfg v m hp hpc hI
  | checkP v m =>
    by_cases hg : s.lastTail + cfg.Q ≤ s.regHead p
    · simp only [applyLabel, hp, if_true, hpc, hg] at h
      rw [Option.some.injEq] at h
      subst h
      exact inv_pstep_checkP_scan cfg v m hp hpc hI
    · simp only [applyLabel, hp, if_true, hpc, hg, if_false, ite_false,
        Option.some.injEq] at h
      subst h
      exact inv_pstep_checkP_write cfg v m hp hpc hg hI
  | scanTP v m =>
    simp only [applyLabel, hp, if_true, hpc] at h
    rw [Option.some.injEq] at h
    subst h
    exact inv_pstep_scanTP cfg v m hp hpc hI
  | scanLP v m mn i =>
    by_cases hg : i < cfg.M
    · simp only [applyLabel, hp, if_true, hpc, hg] at h
      rw [Option.some.injEq] at h
      subst h
      exact inv_pstep_scanLP_step cfg v m mn i hp hpc hg hI
    · simp only [applyLabel, hp, if_true, hpc, hg, if_false, ite_false,
        Option.some.injEq] at h
      subst h
      exact inv_pstep_scanLP_done cfg v m mn i hp hpc hg hI
  | scanWP v m mn =>
    simp only [applyLabel, hp, if_true, hpc] at h
    rw [Option.some.injEq] at h
    subst h
    exact inv_pstep_scanWP cfg v m mn hp hpc hI
  | slotWP v m =>
    simp only [applyLabel, hp, if_true, hpc] at h
    rw [Option.some.injEq] at h
    subst h
    exact inv_pstep_slotWP cfg v m hp hpc hI
  | relP m =>
    simp only [applyLabel, hp, if_true, hpc] at h
    rw [Option.some.injEq] at h
    subst h
    exact inv_pstep_relP cfg m hpc hI

/-- Preservation of the invariant by the read of tail_ in pop. -/
theorem inv_cstep_snapReadC (cfg : Cfg) {s : LState} {c : Nat}
    (hcc : s.cstate c = .snapReadC) (hI : QInv cfg s) :
    QInv cfg { s with cstate := updf s.cstate c (.snapWriteC s.tail) } := by
  obtain ⟨hT1, hH1, hP, hC, hCT, hCH⟩ := hI
  refine ⟨hT1, hH1, ?_, ?_, ?_, hCH⟩
  · exact prods_cupd cfg (fun w hw => by simp [consClaimVal] at hw) hP
  · exact conss_cupd cfg hC le_rfl
  · exact ct_cupd cfg (by simp [hcc, consUnresVal]) hCT

/-- Preservation of the invariant by the pre-fence registry store in
pop. -/
theorem inv_cstep_snapWriteC (cfg : Cfg) {s : LState} {c : Nat} (t : Nat)
    (hc : c < cfg.M) (hcc : s.cstate c = .snapWriteC t) (hI : QInv cfg s) :
    QInv cfg { s with regTail := updf s.regTail c t,
                      cstate := updf s.cstate c .fenceC } := by
  obtain ⟨hT1, hH1, hP, hC, hCT, hCH⟩ := hI
  have hCc := hC c hc
  unfold consInv at hCc
  rw [hcc] at hCc
  simp only [consInvAt] at hCc
  refine ⟨hT1, hH1, ?_, ?_, ?_, hCH⟩
  · exact prods_cupd cfg (fun w hw => by simp [consClaimVal] at hw) hP
  · exact conss_cupd_reg cfg hC hCc
  · exact ct_cupd cfg (by simp [hcc, consUnresVal]) hCT

/-- Preservation of the invariant by the memory fence in pop. -/
theorem inv_cstep_fenceC (cfg : Cfg) {s : LState} {c : Nat}
    (hc : c < cfg.M) (hcc : s.cstate c = .fenceC) (hI : QInv cfg s) :
    QInv cfg { s with cstate := updf s.cstate c .faaC } := by
  obtain ⟨hT1, hH1, hP, hC, hCT, hCH⟩ := hI
  have hCc := hC c hc
  unfold consInv at hCc
  rw [hcc] at hCc
  simp only [consInvAt] at hCc
  refine ⟨hT1, hH1, ?_, ?_, ?_, hCH⟩
  · exact prods_cupd cfg (fun w hw => by simp [consClaimVal] at hw) hP
  · exact conss_cupd cfg hC hCc
  · exact ct_cupd cfg (by simp [hcc, consUnresVal]) hCT

/-- Preservation of the invariant by the fetch-and-add of tail_ in
pop. -/
theorem inv_cstep_faaC (cfg : Cfg) {s : LState} {c : Nat}
    (hc : c < cfg.M) (hcc : s.cstate c = .faaC) (hI : QInv cfg s) :
    QInv cfg { s with tail := s.tail + 1,
                      cstate := updf s.cstate c (.claimWC s.tail) } := by
  obtain ⟨hT1, hH1, hP, hC, hCT, hCH⟩ := hI
  have hCc := hC c hc
  unfold consInv at hCc
  rw [hcc] at hCc
  simp only [consInvAt] at hCc
  refine ⟨Nat.le_succ_of_le hT1, hH1, ?_, ?_, ?_, ?_⟩
  · intro q hq
    simp only [prodInv]
    refine prodInvAt_mono cfg (hP q hq) le_rfl (Nat.le_succ _) ?_
    intro d w hw
    by_cases hdc : d = c
    · subst hdc
      rw [updf_same] at hw
      simp only [consClaimVal, Option.some.injEq] at hw
      exact Or.inr (Nat.le_of_eq hw)
    · rw [updf_other _ _ _ hdc] at hw
      exact Or.inl hw
  · intro d hd
    by_cases hdc : d = c
    · subst hdc
      simp only [consInv, updf_same]
      simp only [consInvAt]
      exact ⟨hCc, hT1⟩
    · simp only [consInv, updf_other _ _ _ hdc]
      exact consInvAt_mono cfg (hC d hd) (Nat.le_succ _) le_rfl (fun q w hw => Or.inl hw)
  · intro w hw
    rcases Nat.lt_or_ge w s.tail with hlt | hge
    · rcases hCT w hlt with hlt2 | ⟨d0, hd0, hval⟩
      · exact Or.inl hlt2
      · have hd0c : d0 ≠ c := by
          intro he
          subst he
          rw [hcc] at hval
          simp [consUnresVal] at hval
        exact Or.inr ⟨d0, hd0, unresC_transfer_ne d0 w hd0c hval⟩
    · have hwt : w = s.tail := by
        have hws : w < s.tail + 1 := hw
        omega
      subst hwt
      exact Or.inr ⟨c, hc, by simp [updf_same, consUnresVal]⟩
  · intro w hw
    rcases hCH w hw with hlt | hwit
    · refine Or.inl ?_
      show w < s.tail + 1 + cfg.Q
      omega
    · exact Or.inr hwit

/-- Preservation of the invariant by the post-fetch-and-add registry
store in pop. -/
theorem inv_cstep_claimWC (cfg : Cfg) {s : LState} {c : Nat} (m : Nat)
    (hc : c < cfg.M) (hcc : s.cstate c = .claimWC m) (hI : QInv cfg s) :
    QInv cfg { s with regTail := updf s.regTail c m,
                      cstate := updf s.cstate c (.checkC m) } := by
  obtain ⟨hT1, hH1, hP, hC, hCT, hCH⟩ := hI
  have hCc := hC c hc
  unfold consInv at hCc
  rw [hcc] at hCc
  simp only [consInvAt] at hCc
  refine ⟨hT1, hH1, ?_, ?_, ?_, hCH⟩
  · refine prods_cupd cfg ?_ hP
    intro w hw
    rw [hcc]
    simp only [consClaimVal, Option.some.injEq] at hw ⊢
    exact hw
  · exact conss_cupd_reg cfg hC ⟨rfl, hCc.2⟩
  · exact ct_cupd cfg (by simp [hcc, consUnresVal]) hCT

/-- Preservation of the invariant by a passing wait-loop check in pop
(the consumer enters the scan). -/
theorem inv_cstep_checkC_scan (cfg : Cfg) {s : LState} {c : Nat} (m : Nat)
    (hc : c < cfg.M) (hcc : s.cstate c = .checkC m) (hI : QInv cfg s) :
    QInv cfg { s with cstate := updf s.cstate c (.scanHC m) } := by
  obtain ⟨hT1, hH1, hP, hC, hCT, hCH⟩ := hI
  have hCc := hC c hc
  unfold consInv at hCc
  rw [hcc] at hCc
  simp only [consInvAt] at hCc
  refine ⟨hT1, hH1, ?_, ?_, ?_, hCH⟩
  · exact prods_cupd cfg (fun w hw => by rw [hcc]; simpa [consClaimVal] using hw) hP
  · exact conss_cupd cfg hC hCc
  · exact ct_cupd cfg (by simp [hcc, consUnresVal]) hCT

/-- Preservation of the invariant by a failing wait-loop check in pop
(the consumer proceeds to the slot read; its reservation becomes
resolved and lies below head_). -/
theorem inv_cstep_checkC_read (cfg : Cfg) {s : LState} {c : Nat} (m : Nat)
    (hc : c < cfg.M) (hcc : s.cstate c = .checkC m)
    (hg : ¬ s.lastHead ≤ s.regTail c) (hI : QInv cfg s) :
    QInv cfg { s with cstate := updf s.cstate c (.slotRC m) } := by
  obtain ⟨hT1, hH1, hP, hC, hCT, hCH⟩ := hI
  have hCc := hC c hc
  unfold consInv at hCc
  rw [hcc] at hCc
  simp only [consInvAt] at hCc
  refine ⟨hT1, hH1, ?_, ?_, ?_, hCH⟩
  · exact prods_cupd cfg (fun w hw => by rw [hcc]; simpa [consClaimVal] using hw) hP
  · exact conss_cupd cfg hC hCc
  · intro w hw
    rcases hCT w hw with hlt | ⟨d0, hd0, hval⟩
    · exact Or.inl hlt
    · by_cases hd0c : d0 = c
      · subst hd0c
        rw [hcc] at hval
        simp only [consUnresVal, Option.some.injEq] at hval
        have hmlt : m < s.lastHead := by
          rw [hCc.1] at hg
          omega
        refine Or.inl ?_
        show w < s.head
        omega
      · exact Or.inr ⟨d0, hd0, unresC_transfer_ne d0 w hd0c hval⟩

/-- Preservation of the invariant by the read of head_ that starts the
scan in pop. -/
theorem inv_cstep_scanHC (cfg : Cfg) {s : LState} {c : Nat} (m : Nat)
    (hc : c < cfg.M) (hcc : s.cstate c = .scanHC m) (hI : QInv cfg s) :
    QInv cfg { s with cstate := updf s.cstate c (.scanLC m s.head 0) } := by
  obtain ⟨hT1, hH1, hP, hC, hCT, hCH⟩ := hI
  have hCc := hC c hc
  unfold consInv at hCc
  rw [hcc] at hCc
  simp only [consInvAt] at hCc
  refine ⟨hT1, hH1, ?_, ?_, ?_, hCH⟩
  · exact prods_cupd cfg (fun w hw => by rw [hcc]; simpa [consClaimVal] using hw) hP
  · refine conss_cupd cfg hC ?_
    exact ⟨hCc.1, hCc.2, le_rfl, fun q w hqi _ => absurd hqi (Nat.not_lt_zero q)⟩
  · exact ct_cupd cfg (by simp [hcc, consUnresVal]) hCT

/-- Preservation of the invariant by one registry read of the scan loop
in pop. -/
theorem inv_cstep_scanLC_step (cfg : Cfg) {s : LState} {c : Nat} (m mn i : Nat)
    (hc : c < cfg.M) (hcc : s.cstate c = .scanLC m mn i) (hg : i < cfg.N)
    (hI : QInv cfg s) :
    QInv cfg { s with cstate := updf s.cstate c (.scanLC m (if s.regHead i < mn then s.regHead i else mn) (i + 1)) } := by
  obtain ⟨hT1, hH1, hP, hC, hCT, hCH⟩ := hI
  have hCc := hC c hc
  unfold consInv at hCc
  rw [hcc] at hCc
  simp only [consInvAt] at hCc
  have hle1 : (if s.regHead i < mn then s.regHead i else mn) ≤ s.regHead i := by
    split <;> omega
  have hle2 : (if s.regHead i < mn then s.regHead i else mn) ≤ mn := by
    split <;> omega
  refine ⟨hT1, hH1, ?_, ?_, ?_, hCH⟩
  · exact prods_cupd cfg (fun w hw => by rw [hcc]; simpa [consClaimVal] using hw) hP
  · refine conss_cupd cfg hC ?_
    refine ⟨hCc.1, hCc.2.1, Nat.le_trans hle2 hCc.2.2.1, ?_⟩
    intro q w hqi hw
    rcases Nat.lt_or_ge q i with hqi' | hqi'
    · exact Nat.le_trans hle2 (hCc.2.2.2 q w hqi' hw)
    · have hqieq : q = i := by omega
      subst hqieq
      have hrh : s.regHead q ≤ w := prodClaim_regHead cfg s q (hP q hg) w hw
      exact Nat.le_trans hle1 hrh
  · exact ct_cupd cfg (by simp [hcc, consUnresVal]) hCT

/-- Preservation of the invariant when the scan loop in pop runs out of
producers. -/
theorem inv_cstep_scanLC_done (cfg : Cfg) {s : LState} {c : Nat} (m mn i : Nat)
    (hc : c < cfg.M) (hcc : s.cstate c = .scanLC m mn i) (hg : ¬ i < cfg.N)
    (hI : QInv cfg s) :
    QInv cfg { s with cstate := updf s.cstate c (.scanWC m mn) } := by
  obtain ⟨hT1, hH1, hP, hC, hCT, hCH⟩ := hI
  have hCc := hC c hc
  unfold consInv at hCc
  rw [hcc] at hCc
  simp only [consInvAt] at hCc
  refine ⟨hT1, hH1, ?_, ?_, ?_, hCH⟩
  · exact prods_cupd cfg (fun w hw => by rw [hcc]; simpa [consClaimVal] using hw) hP
  · refine conss_cupd cfg hC ?_
    refine ⟨hCc.1, hCc.2.1, hCc.2.2.1, ?_⟩
    intro q w hqN hw
    have hqi : q < i := by omega
    exact hCc.2.2.2 q w hqi hw
  · exact ct_cupd cfg (by simp [hcc, consUnresVal]) hCT

/-- Preservation of the invariant by the store of the scanned minimum
into last_head_ in pop. -/
theorem inv_cstep_scanWC (cfg : Cfg) {s : LState} {c : Nat} (m mn : Nat)
    (hc : c < cfg.M) (hcc : s.cstate c = .scanWC m mn) (hI : QInv cfg s) :
    QInv cfg { s with lastHead := mn, cstate := updf s.cstate c (.checkC m) } := by
  obtain ⟨hT1, hH1, hP, hC, hCT, hCH⟩ := hI
  have hCc := hC c hc
  unfold consInv at hCc
  rw [hcc] at hCc
  simp only [consInvAt] at hCc
  refine ⟨hT1, hCc.2.2.1, ?_, ?_, ?_, hCH⟩
  · intro q hq
    have hbase : prodInvAt cfg (s.regHead q) s.head s.tail s.lastHead
        (fun d => consClaimVal (updf s.cstate c (CPC.checkC m) d)) (s.pstate q) :=
      prods_cupd cfg (fun w hw => by rw [hcc]; simpa [consClaimVal] using hw) hP q hq
    exact prodInvAt_newLstH cfg hbase (fun w hw => hCc.2.2.2 q w hq hw)
  · exact conss_cupd cfg hC ⟨hCc.1, hCc.2.1⟩
  · exact ct_cupd cfg (by simp [hcc, consUnresVal]) hCT

/-- Preservation of the invariant by the slot read in pop. -/
theorem inv_cstep_slotRC (cfg : Cfg) {s : LState} {c : Nat} (m : Nat)
    (hc : c < cfg.M) (hcc : s.cstate c = .slotRC m) (hI : QInv cfg s) :
    QInv cfg { s with cstate := updf s.cstate c (.relC m (s.slots (s.regTail c &&& (cfg.Q - 1)))) } := by
  obtain ⟨hT1, hH1, hP, hC, hCT, hCH⟩ := hI
  have hCc := hC c hc
  unfold consInv at hCc
  rw [hcc] at hCc
  simp only [consInvAt] at hCc
  refine ⟨hT1, hH1, ?_, ?_, ?_, hCH⟩
  · exact prods_cupd cfg (fun w hw => by rw [hcc]; simpa [consClaimVal] using hw) hP
  · exact conss_cupd cfg hC hCc
  · exact ct_cupd cfg (by simp [hcc, consUnresVal]) hCT

/-- Preservation of the invariant by the SENTINEL release store that
ends pop. -/
theorem inv_cstep_relC (cfg : Cfg) {s : LState} {c : Nat} (m x : Nat)
    (hcc : s.cstate c = .relC m x) (hI : QInv cfg s) :
    QInv cfg { s with regTail := updf s.regTail c SENTINEL,
                      cstate := updf s.cstate c (.doneC x) } := by
  obtain ⟨hT1, hH1, hP, hC, hCT, hCH⟩ := hI
  refine ⟨hT1, hH1, ?_, ?_, ?_, hCH⟩
  · exact prods_cupd cfg (fun w hw => by simp [consClaimVal] at hw) hP
  · exact conss_cupd_reg cfg hC trivial
  · exact ct_cupd cfg (by simp [hcc, consUnresVal]) hCT

theorem inv_cstep (cfg : Cfg) {s s' : LState} {c : Nat}
    (h : applyLabel cfg s (.cstep c) = some s') (hI : QInv cfg s) : QInv cfg s' := by
  by_cases hc : c < cfg.M
  case neg => simp [applyLabel, hc] at h
  cases hcc : s.cstate c with
  | idleC => simp [applyLabel, hc, hcc] at h
  | doneC x => simp [applyLabel, hc, hcc] at h
  | snapReadC =>
    simp only [applyLabel, hc, if_true, hcc] at h
    rw [Option.some.injEq] at h
    subst h
    exact inv_cstep_snapReadC cfg hcc hI
  | snapWriteC t =>
    simp only [applyLabel, hc, if_true, hcc] at h
    rw [Option.some.injEq] at h
    subst h
    exact inv_cstep_snapWriteC cfg t hc hcc hI
  | fenceC =>
    simp only [applyLabel, hc, if_true, hcc] at h
    rw [Option.some.injEq] at h
    subst h
    exact inv_cstep_fenceC cfg hc hcc hI
  | faaC =>
    simp only [applyLabel, hc, if_true, hcc] at h
    rw [Option.some.injEq] at h
    subst h
    exact inv_cstep_faaC cfg hc hcc hI
  | claimWC m =>
    simp only [applyLabel, hc, if_true, hcc] at h
    rw [Option.some.injEq] at h
    subst h
    exact inv_cstep_claimWC cfg m hc hcc hI
  | checkC m =>
    by_cases hg : s.lastHead ≤ s.regTail c
    · simp only [applyLabel, hc, if_true, hcc, hg] at h
      rw [Option.some.injEq] at h
      subst h
      exact inv_cstep_checkC_scan cfg m hc hcc hI
    · simp only [applyLabel, hc, if_true, hcc, hg, if_false, ite_false,
        Option.some.injEq] at h
      subst h
      exact inv_cstep_checkC_read cfg m hc hcc hg hI
  | scanHC m =>
    simp only [applyLabel, hc, if_true, hcc] at h
    rw [Option.some.injEq] at h
    subst h
    exact inv_cstep_scanHC cfg m hc hcc hI
  | scanLC m mn i =>
    by_cases hg : i < cfg.N
    · simp only [applyLabel, hc, if_true, hcc, hg] at h
      rw [Option.some.injEq] at h
      subst h
      exact inv_cstep_scanLC_step cfg m mn i hc hcc hg hI
    · simp only [applyLabel, hc, if_true, hcc, hg, if_false, ite_false,
        Option.some.injEq] at h
      subst h
      exact inv_cstep_scanLC_done cfg m mn i hc hcc hg hI
  | scanWC m mn =>
    simp only [applyLabel, hc, if_true, hcc] at h
    rw [Option.some.injEq] at h
    subst h
    exact inv_cstep_scanWC cfg m mn hc hcc hI
  | slotRC m =>
    simp only [applyLabel, hc, if_true, hcc] at h
    rw [Option.some.injEq] at h
    subst h
    exact inv_cstep_slotRC cfg m hc hcc hI
  | relC m x =>
    simp only [applyLabel, hc, if_true, hcc] at h
    rw [Option.some.injEq] at h
    subst h
    exact inv_cstep_relC cfg m x hcc hI

theorem inv_step (cfg : Cfg) {s s' : LState} {l : Lbl}
    (h : applyLabel cfg s l = some s') (hI : QInv cfg s) : QInv cfg s' := by
  cases l with
  | pstart p v => exact inv_pstart cfg h hI
  | pstep p => exact inv_pstep cfg h hI
  | cstart c => exact inv_cstart cfg h hI
  | cstep c => exact inv_cstep cfg h hI

theorem run_inv (cfg : Cfg) :
    ∀ (ls : List Lbl) (s0 s : LState), QInv cfg s0 →
      runL cfg s0 ls = some s → QInv cfg s := by
  intro ls
  induction ls with
  | nil =>
    intro s0 s h0 hr
    simp only [runL, Option.some.injEq] at hr
    exact hr ▸ h0
  | cons l ls ih =>
    intro s0 s h0 hr
    simp only [runL] at hr
    cases hstep : applyLabel cfg s0 l with
    | none => rw [hstep] at hr; cases hr
    | some s1 =>
      rw [hstep] at hr
      exact ih s1 s (inv_step cfg hstep h0) hr

/-- Every reachable state of the lock-free queue satisfies the global
invariant. -/
theorem reachable_inv (cfg : Cfg) (s : LState) (h : ReachableL cfg s) :
    QInv cfg s := by
  obtain ⟨ls, hr⟩ := h
  exact run_inv cfg ls initL s (inv_init cfg) hr

/-- A claimed consumer reservation is bounded below by last_tail. -/
theorem consClaim_lastTail (cfg : Cfg) (s : LState) (c : Nat)
    (h : consInv cfg s c) :
    ∀ w, consClaimVal (s.cstate c) = some w → s.lastTail ≤ w := by
  intro w hw
  unfold consInv at h
  cases hcc : s.cstate c <;> rw [hcc] at h hw <;>
    simp only [consClaimVal, Option.some.injEq] at hw <;>
    simp only [consInvAt] at h <;>
    first
      | (subst hw; (first | exact h.2 | exact h.2.1))
      | cases hw

/-- A claimed producer reservation is bounded below by last_head. -/
theorem prodClaim_lastHead (cfg : Cfg) (s : LState) (p : Nat)
    (h : prodInv cfg s p) :
    ∀ w, prodClaimVal (s.pstate p) = some w → s.lastHead ≤ w := by
  intro w hw
  unfold prodInv at h
  cases hcc : s.pstate p <;> rw [hcc] at h hw <;>
    simp only [prodClaimVal, Option.some.injEq] at hw <;>
    simp only [prodInvAt] at h <;>
    first
      | (subst hw; (first | exact h.2 | exact h.2.1))
      | cases hw

/-- In a reachable quiescent state the counters satisfy the ring-buffer
bounds: tail ≤ head and head ≤ tail + Q. -/
theorem quiescent_bounds (cfg : Cfg) (s : LState)
    (hr : ReachableL cfg s) (hq : Quiescent cfg s) :
    s.tail ≤ s.head ∧ s.head ≤ s.tail + cfg.Q := by
  obtain ⟨hT1, hH1, hP, hC, hCT, hCH⟩ := reachable_inv cfg s hr
  constructor
  · by_contra hlt
    push_neg at hlt
    rcases hCT s.head hlt with h2 | ⟨c, hcM, hval⟩
    · omega
    · rcases hq.2 c hcM with hidle | ⟨x, hdone⟩
      · rw [hidle] at hval; simp [consUnresVal] at hval
      · rw [hdone] at hval; simp [consUnresVal] at hval
  · by_contra h2
    push_neg at h2
    rcases hCH (s.tail + cfg.Q) h2 with h3 | ⟨p, hpN, hval⟩
    · omega
    · rw [hq.1 p hpN] at hval; simp [prodUnresVal] at hval

/-!
Claim-level properties and concrete schedules used to settle the
invariants claims.
-/

/-- Formalization of claim C1's per-state property: head ≥ tail and
head − tail ∈ [0, Q]. -/
def headTailBounded (cfg : Cfg) (s : LState) : Prop :=
  s.tail ≤ s.head ∧ s.head - s.tail ≤ cfg.Q

instance (cfg : Cfg) (s : LState) : Decidable (headTailBounded cfg s) := by
  unfold headTailBounded; infer_instance

/-- Formalization of claim C6's stated registry bound: last_tail is at
most every non-sentinel consumer registry tail, which is at most tail;
symmetrically for last_head over producer registry heads. -/
def lastBoundsStated (cfg : Cfg) (s : LState) : Prop :=
  (∀ c, c < cfg.M → s.regTail c ≠ SENTINEL →
     s.lastTail ≤ s.regTail c ∧ s.regTail c ≤ s.tail) ∧
  (∀ p, p < cfg.N → s.regHead p ≠ SENTINEL →
     s.lastHead ≤ s.regHead p ∧ s.regHead p ≤ s.head)

instance (cfg : Cfg) (s : LState) : Decidable (lastBoundsStated cfg s) := by
  unfold lastBoundsStated; infer_instance

/-- Configuration used by the concrete counterexample schedules: two
producers, two consumers, capacity 2. -/
def cexCfg : Cfg := ⟨2, 2, 2⟩

/-- Schedule: consumer 0 starts pop() on the empty queue and executes
through its fetch-and-add on tail_. -/
def c1CexTrace : List Lbl := Lbl.cstart 0 :: List.replicate 4 (Lbl.cstep 0)

/-- Schedule: producer 0 completes push(10) and push(11); consumer 1
starts pop() and stalls after reading tail_ = 0 but before storing it
into its registry entry; consumer 0 completes a pop (advancing tail to 1
and publishing last_head = 2); producer 0 runs push(12) through its
wait-loop scan, publishing last_tail = 1 while consumer 1's entry is
still SENTINEL; finally consumer 1 performs its stale registry store
of 0. -/
def c6BoundTrace : List Lbl :=
  (Lbl.pstart 0 10 :: List.replicate 8 (Lbl.pstep 0)) ++
  (Lbl.pstart 0 11 :: List.replicate 8 (Lbl.pstep 0)) ++
  [Lbl.cstart 1, Lbl.cstep 1] ++
  (Lbl.cstart 0 :: List.replicate 14 (Lbl.cstep 0)) ++
  (Lbl.pstart 0 12 :: List.replicate 11 (Lbl.pstep 0)) ++
  [Lbl.cstep 1]

/-- Schedule: after two pushes and one pop, producer 1 runs its wait-loop
scan reading tail_ = 1 and stalls right before publishing; consumer 0
pops again (tail = 2); producer 0 scans and publishes last_tail = 2;
producer 1 is now one step from publishing the stale minimum 1. -/
def c6MonoTrace : List Lbl :=
  (Lbl.pstart 0 10 :: List.replicate 8 (Lbl.pstep 0)) ++
  (Lbl.pstart 0 11 :: List.replicate 8 (Lbl.pstep 0)) ++
  (Lbl.cstart 0 :: List.replicate 14 (Lbl.cstep 0)) ++
  (Lbl.pstart 1 12 :: List.replicate 10 (Lbl.pstep 1)) ++
  (Lbl.cstart 0 :: List.replicate 8 (Lbl.cstep 0)) ++
  (Lbl.pstart 0 13 :: List.replicate 11 (Lbl.pstep 0))

/-- Single-pass evaluation of the C1 schedule: it completes, and the
final state violates the head/tail bound. -/
theorem c1CexRun : (match runL cexCfg initL c1CexTrace with
    | some s => decide (headTailBounded cexCfg s)
    | none => true) = false := rfl

/-- C1 counterexample: a reachable state of the lock-free queue in which
tail exceeds head (a consumer fetch-and-adds tail_ before its wait loop,
so pop() on an empty queue overshoots head_). -/
theorem c1_counterexample :
    ∃ s : LState, ReachableL cexCfg s ∧ ¬ headTailBounded cexCfg s := by
  have h := c1CexRun
  cases hr : runL cexCfg initL c1CexTrace with
  | none => rw [hr] at h; exact Bool.noConfusion h
  | some s =>
    rw [hr] at h
    exact ⟨s, ⟨c1CexTrace, hr⟩, of_decide_eq_false h⟩

/-- C1 (amended): in every reachable quiescent state (no push or pop in
progress) of the lock-free queue, head ≥ tail and head − tail ∈ [0, Q];
mid-operation the bounds can be transiently violated. -/
theorem c1_quiescent_head_tail (cfg : Cfg) (s : LState)
    (hr : ReachableL cfg s) (hq : Quiescent cfg s) :
    headTailBounded cfg s := by
  obtain ⟨h1, h2⟩ := quiescent_bounds cfg s hr hq
  exact ⟨h1, by omega⟩

/-- Witness: the freshly constructed queue is reachable and quiescent,
and the amended C1 bounds hold there. -/
theorem c1_quiescent_head_tail_witness :
    ReachableL cexCfg initL ∧ Quiescent cexCfg initL ∧ headTailBounded cexCfg initL := by
  have hr : ReachableL cexCfg initL := ⟨[], rfl⟩
  have hq : Quiescent cexCfg initL := ⟨fun p _ => rfl, fun c _ => Or.inl rfl⟩
  exact ⟨hr, hq, c1_quiescent_head_tail cexCfg initL hr hq⟩

/-- Single-pass evaluation of the first C6 schedule: it completes, and
the final state violates the stated registry-minimum bound. -/
theorem c6CexRunBound : (match runL cexCfg initL c6BoundTrace with
    | some s => decide (lastBoundsStated cexCfg s)
    | none => true) = false := rfl

/-- Single-pass evaluation of the second C6 schedule: it completes, the
stalled scanner's publishing step is enabled, and that step strictly
decreases last_tail. -/
theorem c6CexRunMono : (match runL cexCfg initL c6MonoTrace with
    | some s => (match applyLabel cexCfg s (.pstep 1) with
      | some t => decide (s.lastTail ≤ t.lastTail)
      | none => true)
    | none => true) = false := rfl

theorem foldMin_le_init (g : Nat → Nat) :
    ∀ (l : List Nat) (a : Nat),
      l.foldl (fun mn i => if g i < mn then g i else mn) a ≤ a := by
  intro l
  induction l with
  | nil => intro a; exact le_rfl
  | cons b l ih =>
    intro a
    refine Nat.le_trans (ih _) ?_
    dsimp only
    split <;> omega

theorem foldMin_le_mem (g : Nat → Nat) :
    ∀ (l : List Nat) (a i : Nat), i ∈ l →
      l.foldl (fun mn i => if g i < mn then g i else mn) a ≤ g i := by
  intro l
  induction l with
  | nil => intro a i hi; cases hi
  | cons b l ih =>
    intro a i hi
    rcases List.mem_cons.mp hi with he | hm
    · subst he
      refine Nat.le_trans (foldMin_le_init g l _) ?_
      dsimp only
      split <;> omega
    · exact ih _ i hm

theorem foldMin_mem_or_init (g : Nat → Nat) :
    ∀ (l : List Nat) (a : Nat),
      l.foldl (fun mn i => if g i < mn then g i else mn) a = a ∨
      ∃ i ∈ l, l.foldl (fun mn i => if g i < mn then g i else mn) a = g i := by
  intro l
  induction l with
  | nil => intro a; exact Or.inl rfl
  | cons b l ih =>
    intro a
    rcases ih (if g b < a then g b else a) with he | ⟨i, hi, he⟩
    · rw [List.foldl_cons, he]
      split
      · exact Or.inr ⟨b, List.mem_cons_self b l, rfl⟩
      · exact Or.inl rfl
    · exact Or.inr ⟨i, List.mem_cons_of_mem b hi, by rw [List.foldl_cons, he]⟩

/-- v is the minimum of the (nonempty) list l. -/
def isMinOf (v : Nat) (l : List Nat) : Prop := v ∈ l ∧ ∀ x ∈ l, v ≤ x

/-- What a producer's wait-loop scan writes into last_tail_ (as a
function of the state it reads from, absent interference). -/
def tailScanFold (cfg : Cfg) (s : LState) : Nat := tailsMin cfg s.tail s.regTail

/-- What a consumer's wait-loop scan writes into last_head_. -/
def headScanFold (cfg : Cfg) (s : LState) : Nat := headsMin cfg s.head s.regHead

theorem tailScanFold_isMin (cfg : Cfg) (s : LState) :
    isMinOf (tailScanFold cfg s) (s.tail :: (List.range cfg.M).map s.regTail) := by
  constructor
  · rcases foldMin_mem_or_init s.regTail (List.range cfg.M) s.tail with he | ⟨i, hi, he⟩
    · exact List.mem_cons.mpr (Or.inl he)
    · exact List.mem_cons.mpr (Or.inr (List.mem_map.mpr ⟨i, hi, he.symm⟩))
  · intro x hx
    rcases List.mem_cons.mp hx with he | hm
    · exact he ▸ foldMin_le_init s.regTail (List.range cfg.M) s.tail
    · obtain ⟨i, hi, he⟩ := List.mem_map.mp hm
      exact he ▸ foldMin_le_mem s.regTail (List.range cfg.M) s.tail i hi

theorem headScanFold_isMin (cfg : Cfg) (s : LState) :
    isMinOf (headScanFold cfg s) (s.head :: (List.range cfg.N).map s.regHead) := by
  constructor
  · rcases foldMin_mem_or_init s.regHead (List.range cfg.N) s.head with he | ⟨i, hi, he⟩
    · exact List.mem_cons.mpr (Or.inl he)
    · exact List.mem_cons.mpr (Or.inr (List.mem_map.mpr ⟨i, hi, he.symm⟩))
  · intro x hx
    rcases List.mem_cons.mp hx with he | hm
    · exact he ▸ foldMin_le_init s.regHead (List.range cfg.N) s.head
    · obtain ⟨i, hi, he⟩ := List.mem_map.mp hm
      exact he ▸ foldMin_le_mem s.regHead (List.range cfg.N) s.head i hi

/-- Running a producer alone from the middle of its wait-loop scan to
the loop-condition recheck: the iterated per-entry minimum steps compute
the fold of the scanned registry suffix and publish it into last_tail_. -/
theorem pscan_run (cfg : Cfg) (p : Nat) (hp : p < cfg.N) :
    ∀ (k : Nat) (s : LState) (v m mn i : Nat),
      s.pstate p = .scanLP v m mn i → cfg.M = i + k →
      ∃ s', runL cfg s (List.replicate (k + 2) (.pstep p)) = some s' ∧
        s'.lastTail = (List.range' i k).foldl
          (fun a j => if s.regTail j < a then s.regTail j else a) mn ∧
        s'.pstate p = .checkP v m ∧
        s'.head = s.head ∧ s'.tail = s.tail ∧ s'.lastHead = s.lastHead ∧
        s'.regHead = s.regHead ∧ s'.regTail = s.regTail ∧
        s'.slots = s.slots ∧ s'.cstate = s.cstate := by
  intro k
  induction k with
  | zero =>
    intro s v m mn i hpc hM
    have hnot : ¬ i < cfg.M := by omega
    have h1 : applyLabel cfg s (.pstep p) =
        some { s with pstate := updf s.pstate p (.scanWP v m mn) } := by
      simp [applyLabel, hp, hpc, hnot]
    have h2 : applyLabel cfg { s with pstate := updf s.pstate p (.scanWP v m mn) }
        (.pstep p) =
        some { s with lastTail := mn, pstate := updf (updf s.pstate p (.scanWP v m mn)) p (.checkP v m) } := by
      simp [applyLabel, hp, updf_same]
    refine ⟨{ s with lastTail := mn, pstate := updf (updf s.pstate p (.scanWP v m mn)) p (.checkP v m) }, ?_, ?_, ?_, rfl, rfl, rfl, rfl, rfl, rfl, rfl⟩
    · show runL cfg s [Lbl.pstep p, Lbl.pstep p] = _
      simp only [runL, h1, h2]
    · simp [List.range']
    · simp [updf_same]
  | succ k ih =>
    intro s v m mn i hpc hM
    have hlt : i < cfg.M := by omega
    have h1 : applyLabel cfg s (.pstep p) = some { s with pstate := updf s.pstate p (.scanLP v m (if s.regTail i < mn then s.regTail i else mn) (i + 1)) } := by
      simp [applyLabel, hp, hpc, hlt]
    obtain ⟨s', hrun, hltl, hpcf, hh, ht, hlh, hrh, hrt, hsl, hcs⟩ :=
      ih { s with pstate := updf s.pstate p (.scanLP v m (if s.regTail i < mn then s.regTail i else mn) (i + 1)) } v m (if s.regTail i < mn then s.regTail i else mn) (i + 1) (updf_same _ _ _) (by omega)
    refine ⟨s', ?_, ?_, hpcf, hh, ht, hlh, hrh, hrt, hsl, hcs⟩
    · show runL cfg s (Lbl.pstep p :: List.replicate (k + 2) (.pstep p)) = some s'
      simp only [runL, h1]
      exact hrun
    · rw [hltl, List.range'_succ]
      rfl

/-- Mirror of pscan_run for a consumer's wait-loop scan over the
producers' registry heads, publishing into last_head_. -/
theorem cscan_run (cfg : Cfg) (c : Nat) (hc : c < cfg.M) :
    ∀ (k : Nat) (s : LState) (m mn i : Nat),
      s.cstate c = .scanLC m mn i → cfg.N = i + k →
      ∃ s', runL cfg s (List.replicate (k + 2) (.cstep c)) = some s' ∧
        s'.lastHead = (List.range' i k).foldl
          (fun a j => if s.regHead j < a then s.regHead j else a) mn ∧
        s'.cstate c = .checkC m ∧
        s'.head = s.head ∧ s'.tail = s.tail ∧ s'.lastTail = s.lastTail ∧
        s'.regHead = s.regHead ∧ s'.regTail = s.regTail ∧
        s'.slots = s.slots ∧ s'.pstate = s.pstate := by
  intro k
  induction k with
  | zero =>
    intro s m mn i hcc hN
    have hnot : ¬ i < cfg.N := by omega
    have h1 : applyLabel cfg s (.cstep c) =
        some { s with cstate := updf s.cstate c (.scanWC m mn) } := by
      simp [applyLabel, hc, hcc, hnot]
    have h2 : applyLabel cfg { s with cstate := updf s.cstate c (.scanWC m mn) }
        (.cstep c) =
        some { s with lastHead := mn, cstate := updf (updf s.cstate c (.scanWC m mn)) c (.checkC m) } := by
      simp [applyLabel, hc, updf_same]
    refine ⟨{ s with lastHead := mn, cstate := updf (updf s.cstate c (.scanWC m mn)) c (.checkC m) }, ?_, ?_, ?_, rfl, rfl, rfl, rfl, rfl, rfl, rfl⟩
    · show runL cfg s [Lbl.cstep c, Lbl.cstep c] = _
      simp only [runL, h1, h2]
    · simp [List.range']
    · simp [updf_same]
  | succ k ih =>
    intro s m mn i hcc hN
    have hlt : i < cfg.N := by omega
    have h1 : applyLabel cfg s (.cstep c) = some { s with cstate := updf s.cstate c (.scanLC m (if s.regHead i < mn then s.regHead i else mn) (i + 1)) } := by
      simp [applyLabel, hc, hcc, hlt]
    obtain ⟨s', hrun, hlhd, hccf, hh, ht, hlt', hrh, hrt, hsl, hps⟩ :=
      ih { s with cstate := updf s.cstate c (.scanLC m (if s.regHead i < mn then s.regHead i else mn) (i + 1)) } m (if s.regHead i < mn then s.regHead i else mn) (i + 1) (updf_same _ _ _) (by omega)
    refine ⟨s', ?_, ?_, hccf, hh, ht, hlt', hrh, hrt, hsl, hps⟩
    · show runL cfg s (Lbl.cstep c :: List.replicate (k + 2) (.cstep c)) = some s'
      simp only [runL, h1]
      exact hrun
    · rw [hlhd, List.range'_succ]
      rfl

/-- C2: every lock-free push(v) performs exactly the source's steps in
order: it stores the current head into the caller's registry entry (the
two-step snapshot publication: read head_, store it), issues the full
fence, fetch-and-adds 1 to head_ storing the prior value my_head into
the registry entry, then while my_head ≥ last_tail_ + Q it re-scans:
min starts at tail_, each consumer registry tail lowers it (keeping the
smaller value, so SENTINEL entries never lower it below genuine values),
and the result is published into last_tail_; once the check passes it
writes v into slots[my_head & (Q−1)] and finally resets the registry
entry to SENTINEL.  The scan-run conjunct shows an uninterfered scan
publishes exactly the minimum of tail_ and the consumer registry tails,
and in reachable states the registry entry read by the check and the
slot store equals my_head. -/
theorem c2_push_steps (cfg : Cfg) (p v : Nat) (hp : p < cfg.N) (s : LState) :
    (s.pstate p = .snapReadP v →
      applyLabel cfg s (.pstep p) = some { s with pstate := updf s.pstate p (.snapWriteP v s.head) }) ∧
    (∀ h0, s.pstate p = .snapWriteP v h0 →
      applyLabel cfg s (.pstep p) = some { s with regHead := updf s.regHead p h0, pstate := updf s.pstate p (.fenceP v) }) ∧
    (s.pstate p = .fenceP v →
      applyLabel cfg s (.pstep p) = some { s with pstate := updf s.pstate p (.faaP v) }) ∧
    (s.pstate p = .faaP v →
      applyLabel cfg s (.pstep p) = some { s with head := s.head + 1, pstate := updf s.pstate p (.claimWP v s.head) }) ∧
    (∀ m, s.pstate p = .claimWP v m →
      applyLabel cfg s (.pstep p) = some { s with regHead := updf s.regHead p m, pstate := updf s.pstate p (.checkP v m) }) ∧
    (∀ m, s.pstate p = .checkP v m →
      applyLabel cfg s (.pstep p) = some { s with pstate := updf s.pstate p (if s.lastTail + cfg.Q ≤ s.regHead p then .scanTP v m else .slotWP v m) }) ∧
    (∀ m, s.pstate p = .scanTP v m →
      applyLabel cfg s (.pstep p) = some { s with pstate := updf s.pstate p (.scanLP v m s.tail 0) }) ∧
    (∀ m mn i, s.pstate p = .scanLP v m mn i → i < cfg.M →
      applyLabel cfg s (.pstep p) = some { s with pstate := updf s.pstate p (.scanLP v m (min mn (s.regTail i)) (i + 1)) }) ∧
    (∀ m mn i, s.pstate p = .scanLP v m mn i → cfg.M ≤ i →
      applyLabel cfg s (.pstep p) = some { s with pstate := updf s.pstate p (.scanWP v m mn) }) ∧
    (∀ m mn, s.pstate p = .scanWP v m mn →
      applyLabel cfg s (.pstep p) = some { s with lastTail := mn, pstate := updf s.pstate p (.checkP v m) }) ∧
    (∀ m, s.pstate p = .slotWP v m →
      applyLabel cfg s (.pstep p) = some { s with slots := updf s.slots (s.regHead p &&& (cfg.Q - 1)) v, pstate := updf s.pstate p (.relP m) }) ∧
    (∀ m, s.pstate p = .relP m →
      applyLabel cfg s (.pstep p) = some { s with regHead := updf s.regHead p SENTINEL, pstate := updf s.pstate p .idleP }) ∧
    (∀ m, s.pstate p = .scanTP v m →
      ∃ s', runL cfg s (List.replicate (cfg.M + 3) (.pstep p)) = some s' ∧
        s'.lastTail = tailScanFold cfg s ∧ s'.pstate p = .checkP v m ∧
        s'.head = s.head ∧ s'.tail = s.tail ∧ s'.regTail = s.regTail) ∧
    isMinOf (tailScanFold cfg s) (s.tail :: (List.range cfg.M).map s.regTail) ∧
    (ReachableL cfg s → ∀ m,
      s.pstate p = .checkP v m ∨ s.pstate p = .slotWP v m → s.regHead p = m) := by
  refine ⟨?_, ?_, ?_, ?_, ?_, ?_, ?_, ?_, ?_, ?_, ?_, ?_, ?_, ?_, ?_⟩
  · intro hpc; simp [applyLabel, hp, hpc]
  · intro h0 hpc; simp [applyLabel, hp, hpc]
  · intro hpc; simp [applyLabel, hp, hpc]
  · intro hpc; simp [applyLabel, hp, hpc]
  · intro m hpc; simp [applyLabel, hp, hpc]
  · intro m hpc
    by_cases hg : s.lastTail + cfg.Q ≤ s.regHead p <;> simp [applyLabel, hp, hpc, hg]
  · intro m hpc; simp [applyLabel, hp, hpc]
  · intro m mn i hpc hi
    have he : (if s.regTail i < mn then s.regTail i else mn) = min mn (s.regTail i) := by
      split <;> omega
    simp [applyLabel, hp, hpc, hi, he]
  · intro m mn i hpc hi
    have hnot : ¬ i < cfg.M := by omega
    simp [applyLabel, hp, hpc, hnot]
  · intro m mn hpc; simp [applyLabel, hp, hpc]
  · intro m hpc; simp [applyLabel, hp, hpc]
  · intro m hpc; simp [applyLabel, hp, hpc]
  · intro m hpc
    have h1 : applyLabel cfg s (.pstep p) = some { s with pstate := updf s.pstate p (.scanLP v m s.tail 0) } := by
      simp [applyLabel, hp, hpc]
    obtain ⟨s', hrun, hltl, hpcf, hh, ht, _, _, hrt, _, _⟩ :=
      pscan_run cfg p hp cfg.M { s with pstate := updf s.pstate p (.scanLP v m s.tail 0) } v m s.tail 0 (updf_same _ _ _) (by omega)
    refine ⟨s', ?_, ?_, hpcf, hh, ht, hrt⟩
    · show runL cfg s (List.replicate (cfg.M + 2 + 1) (.pstep p)) = some s'
      rw [List.replicate_succ]
      simp only [runL, h1]
      exact hrun
    · rw [hltl]
      simp only [tailScanFold, tailsMin, List.range_eq_range']
  · exact tailScanFold_isMin cfg s
  · intro hr m hor
    have hinv := reachable_inv cfg s hr
    have hPp := hinv.prods p hp
    unfold prodInv at hPp
    rcases hor with hpc | hpc <;> rw [hpc] at hPp <;>
      simp only [prodInvAt] at hPp <;> exact hPp.1

/-- State used by the C2 witness: producer 0 has just started push(5). -/
def c2WitState : LState := (runL cexCfg initL [Lbl.pstart 0 5]).getD initL

/-- Witness: the first transition of a started push reads head_ into
the snapshot stage, per c2_push_steps. -/
theorem c2_push_steps_witness :
    applyLabel cexCfg c2WitState (.pstep 0) =
      some { c2WitState with pstate := updf c2WitState.pstate 0 (.snapWriteP 5 c2WitState.head) } :=
  (c2_push_steps cexCfg 0 5 (by decide) c2WitState).1 rfl

/-- C3: every lock-free pop performs exactly the steps symmetric to
push, in order: it stores the current tail into the caller's registry
entry (read tail_, then store), issues the full fence, fetch-and-adds 1
to tail_ storing the prior value my_tail into the registry entry, then
while my_tail ≥ last_head_ it re-scans: min starts at head_, each
producer registry head lowers it, and the result is published into
last_head_; once the check passes it reads x = slots[my_tail & (Q−1)],
resets the registry entry to SENTINEL and returns x (recorded in the
finished consumer's control state).  The scan-run conjunct shows an
uninterfered scan publishes the minimum of head_ and the producer
registry heads, and in reachable states the registry entry read by the
check and the slot read equals my_tail. -/
theorem c3_pop_steps (cfg : Cfg) (c : Nat) (hc : c < cfg.M) (s : LState) :
    (s.cstate c = .snapReadC →
      applyLabel cfg s (.cstep c) = some { s with cstate := updf s.cstate c (.snapWriteC s.tail) }) ∧
    (∀ t0, s.cstate c = .snapWriteC t0 →
      applyLabel cfg s (.cstep c) = some { s with regTail := updf s.regTail c t0, cstate := updf s.cstate c .fenceC }) ∧
    (s.cstate c = .fenceC →
      applyLabel cfg s (.cstep c) = some { s with cstate := updf s.cstate c .faaC }) ∧
    (s.cstate c = .faaC →
      applyLabel cfg s (.cstep c) = some { s with tail := s.tail + 1, cstate := updf s.cstate c (.claimWC s.tail) }) ∧
    (∀ m, s.cstate c = .claimWC m →
      applyLabel cfg s (.cstep c) = some { s with regTail := updf s.regTail c m, cstate := updf s.cstate c (.checkC m) }) ∧
    (∀ m, s.cstate c = .checkC m →
      applyLabel cfg s (.cstep c) = some { s with cstate := updf s.cstate c (if s.lastHead ≤ s.regTail c then .scanHC m else .slotRC m) }) ∧
    (∀ m, s.cstate c = .scanHC m →
      applyLabel cfg s (.cstep c) = some { s with cstate := updf s.cstate c (.scanLC m s.head 0) }) ∧
    (∀ m mn i, s.cstate c = .scanLC m mn i → i < cfg.N →
      applyLabel cfg s (.cstep c) = some { s with cstate := updf s.cstate c (.scanLC m (min mn (s.regHead i)) (i + 1)) }) ∧
    (∀ m mn i, s.cstate c = .scanLC m mn i → cfg.N ≤ i →
      applyLabel cfg s (.cstep c) = some { s with cstate := updf s.cstate c (.scanWC m mn) }) ∧
    (∀ m mn, s.cstate c = .scanWC m mn →
      applyLabel cfg s (.cstep c) = some { s with lastHead := mn, cstate := updf s.cstate c (.checkC m) }) ∧
    (∀ m, s.cstate c = .slotRC m →
      applyLabel cfg s (.cstep c) = some { s with cstate := updf s.cstate c (.relC m (s.slots (s.regTail c &&& (cfg.Q - 1)))) }) ∧
    (∀ m x, s.cstate c = .relC m x →
      applyLabel cfg s (.cstep c) = some { s with regTail := updf s.regTail c SENTINEL, cstate := updf s.cstate c (.doneC x) }) ∧
    (∀ m, s.cstate c = .scanHC m →
      ∃ s', runL cfg s (List.replicate (cfg.N + 3) (.cstep c)) = some s' ∧
        s'.lastHead = headScanFold cfg s ∧ s'.cstate c = .checkC m ∧
        s'.head = s.head ∧ s'.tail = s.tail ∧ s'.regHead = s.regHead) ∧
    isMinOf (headScanFold cfg s) (s.head :: (List.range cfg.N).map s.regHead) ∧
    (ReachableL cfg s → ∀ m,
      s.cstate c = .checkC m ∨ s.cstate c = .slotRC m → s.regTail c = m) := by
  refine ⟨?_, ?_, ?_, ?_, ?_, ?_, ?_, ?_, ?_, ?_, ?_, ?_, ?_, ?_, ?_⟩
  · intro hcc; simp [applyLabel, hc, hcc]
  · intro t0 hcc; simp [applyLabel, hc, hcc]
  · intro hcc; simp [applyLabel, hc, hcc]
  · intro hcc; simp [applyLabel, hc, hcc]
  · intro m hcc; simp [applyLabel, hc, hcc]
  · intro m hcc
    by_cases hg : s.lastHead ≤ s.regTail c <;> simp [applyLabel, hc, hcc, hg]
  · intro m hcc; simp [applyLabel, hc, hcc]
  · intro m mn i hcc hi
    have he : (if s.regHead i < mn then s.regHead i else mn) = min mn (s.regHead i) := by
      split <;> omega
    simp [applyLabel, hc, hcc, hi, he]
  · intro m mn i hcc hi
    have hnot : ¬ i < cfg.N := by omega
    simp [applyLabel, hc, hcc, hnot]
  · intro m mn hcc; simp [applyLabel, hc, hcc]
  · intro m hcc; simp [applyLabel, hc, hcc]
  · intro m x hcc; simp [applyLabel, hc, hcc]
  · intro m hcc
    have h1 : applyLabel cfg s (.cstep c) = some { s with cstate := updf s.cstate c (.scanLC m s.head 0) } := by
      simp [applyLabel, hc, hcc]
    obtain ⟨s', hrun, hlhd, hccf, hh, ht, _, hrh, _, _, _⟩ :=
      cscan_run cfg c hc cfg.N { s with cstate := updf s.cstate c (.scanLC m s.head 0) } m s.head 0 (updf_same _ _ _) (by omega)
    refine ⟨s', ?_, ?_, hccf, hh, ht, hrh⟩
    · show runL cfg s (List.replicate (cfg.N + 2 + 1) (.cstep c)) = some s'
      rw [List.replicate_succ]
      simp only [runL, h1]
      exact hrun
    · rw [hlhd]
      simp only [headScanFold, headsMin, List.range_eq_range']
  · exact headScanFold_isMin cfg s
  · intro hr m hor
    have hinv := reachable_inv cfg s hr
    have hCc := hinv.conss c hc
    unfold consInv at hCc
    rcases hor with hcc | hcc <;> rw [hcc] at hCc <;>
      simp only [consInvAt] at hCc <;> exact hCc.1

/-- State used by the C3 witness: consumer 0 has just started pop(). -/
def c3WitState : LState := (runL cexCfg initL [Lbl.cstart 0]).getD initL

/-- Witness: the first transition of a started pop reads tail_ into the
snapshot stage, per c3_pop_steps. -/
theorem c3_pop_steps_witness :
    applyLabel cexCfg c3WitState (.cstep 0) =
      some { c3WitState with cstate := updf c3WitState.cstate 0 (.snapWriteC c3WitState.tail) } :=
  (c3_pop_steps cexCfg 0 (by decide) c3WitState).1 rfl

/-- The stage at which a push performs its single fetch-and-add on
head_. -/
def isFaaP : PPC → Bool
  | .faaP _ => true
  | _ => false

/-- The stage at which a pop performs its single fetch-and-add on
tail_. -/
def isFaaC : CPC → Bool
  | .faaC => true
  | _ => false

theorem pstep_counters (cfg : Cfg) {s s' : LState} {p : Nat}
    (h : applyLabel cfg s (.pstep p) = some s') :
    s'.tail = s.tail ∧
    (if isFaaP (s.pstate p) then s'.head = s.head + 1 else s'.head = s.head) := by
  by_cases hp : p < cfg.N
  case neg => simp [applyLabel, hp] at h
  cases hpc : s.pstate p <;>
    simp only [applyLabel, hp, if_true, hpc] at h <;>
    (try split at h) <;>
    (first
      | (rw [Option.some.injEq] at h; subst h; simp [isFaaP, hpc])
      | cases h)

theorem cstep_counters (cfg : Cfg) {s s' : LState} {c : Nat}
    (h : applyLabel cfg s (.cstep c) = some s') :
    s'.head = s.head ∧
    (if isFaaC (s.cstate c) then s'.tail = s.tail + 1 else s'.tail = s.tail) := by
  by_cases hc : c < cfg.M
  case neg => simp [applyLabel, hc] at h
  cases hcc : s.cstate c <;>
    simp only [applyLabel, hc, if_true, hcc] at h <;>
    (try split at h) <;>
    (first
      | (rw [Option.some.injEq] at h; subst h; simp [isFaaC, hcc])
      | cases h)

theorem pstart_counters (cfg : Cfg) {s s' : LState} {p v : Nat}
    (h : applyLabel cfg s (.pstart p v) = some s') :
    s'.head = s.head ∧ s'.tail = s.tail := by
  by_cases hp : p < cfg.N
  case neg => simp [applyLabel, hp] at h
  cases hpc : s.pstate p <;>
    simp only [applyLabel, hp, if_true, hpc] at h <;>
    (first
      | (rw [Option.some.injEq] at h; subst h; exact ⟨rfl, rfl⟩)
      | cases h)

theorem cstart_counters (cfg : Cfg) {s s' : LState} {c : Nat}
    (h : applyLabel cfg s (.cstart c) = some s') :
    s'.head = s.head ∧ s'.tail = s.tail := by
  by_cases hc : c < cfg.M
  case neg => simp [applyLabel, hc] at h
  cases hcc : s.cstate c <;>
    simp only [applyLabel, hc, if_true, hcc] at h <;>
    (first
      | (rw [Option.some.injEq] at h; subst h; exact ⟨rfl, rfl⟩)
      | cases h)

/-- Every single step leaves head_ and tail_ monotone. -/
theorem step_mono (cfg : Cfg) {s s' : LState} {l : Lbl}
    (h : applyLabel cfg s l = some s') :
    s.head ≤ s'.head ∧ s.tail ≤ s'.tail := by
  cases l with
  | pstart p v =>
    obtain ⟨h1, h2⟩ := pstart_counters cfg h
    omega
  | pstep p =>
    obtain ⟨h1, h2⟩ := pstep_counters cfg h
    by_cases hf : isFaaP (s.pstate p) = true
    · rw [if_pos hf] at h2; omega
    · rw [if_neg hf] at h2; omega
  | cstart c =>
    obtain ⟨h1, h2⟩ := cstart_counters cfg h
    omega
  | cstep c =>
    obtain ⟨h1, h2⟩ := cstep_counters cfg h
    by_cases hf : isFaaC (s.cstate c) = true
    · rw [if_pos hf] at h2; omega
    · rw [if_neg hf] at h2; omega

/-- Head and tail are monotone over any schedule. -/
theorem run_mono (cfg : Cfg) :
    ∀ (ls : List Lbl) (s s' : LState), runL cfg s ls = some s' →
      s.head ≤ s'.head ∧ s.tail ≤ s'.tail := by
  intro ls
  induction ls with
  | nil =>
    intro s s' h
    simp only [runL, Option.some.injEq] at h
    subst h
    exact ⟨le_rfl, le_rfl⟩
  | cons l ls ih =>
    intro s s' h
    simp only [runL] at h
    cases hstep : applyLabel cfg s l with
    | none => rw [hstep] at h; cases h
    | some s1 =>
      rw [hstep] at h
      obtain ⟨ha, hb⟩ := step_mono cfg hstep
      obtain ⟨hc, hd⟩ := ih s1 s' h
      exact ⟨Nat.le_trans ha hc, Nat.le_trans hb hd⟩

/-- C7: head_ and tail_ never decrease, in either queue.  For the
lock-free queue: every single step and every whole schedule is monotone
in both counters; a producer step changes tail_ never and head_ only at
its one fetch-and-add stage, by exactly 1 (symmetrically for consumer
steps); starting an operation changes neither counter.  For the naive
queue: push increments head_ by exactly 1 leaving tail_ unchanged, and
pop increments tail_ by exactly 1 leaving head_ unchanged. -/
theorem c7_counters_monotone :
    (∀ (cfg : Cfg) (s s' : LState) (l : Lbl), applyLabel cfg s l = some s' →
       s.head ≤ s'.head ∧ s.tail ≤ s'.tail) ∧
    (∀ (cfg : Cfg) (ls : List Lbl) (s s' : LState), runL cfg s ls = some s' →
       s.head ≤ s'.head ∧ s.tail ≤ s'.tail) ∧
    (∀ (cfg : Cfg) (s s' : LState) (p : Nat), applyLabel cfg s (.pstep p) = some s' →
       s'.tail = s.tail ∧
       (if isFaaP (s.pstate p) then s'.head = s.head + 1 else s'.head = s.head)) ∧
    (∀ (cfg : Cfg) (s s' : LState) (c : Nat), applyLabel cfg s (.cstep c) = some s' →
       s'.head = s.head ∧
       (if isFaaC (s.cstate c) then s'.tail = s.tail + 1 else s'.tail = s.tail)) ∧
    (∀ (cfg : Cfg) (s s' : LState) (p v : Nat), applyLabel cfg s (.pstart p v) = some s' →
       s'.head = s.head ∧ s'.tail = s.tail) ∧
    (∀ (cfg : Cfg) (s s' : LState) (c : Nat), applyLabel cfg s (.cstart c) = some s' →
       s'.head = s.head ∧ s'.tail = s.tail) ∧
    (∀ (Q : Nat) (q q' : NQ) (x : Nat), nPush Q q x = some q' →
       q'.head = q.head + 1 ∧ q'.tail = q.tail) ∧
    (∀ (Q : Nat) (q q' : NQ) (x : Nat), nPop Q q = some (x, q') →
       q'.tail = q.tail + 1 ∧ q'.head = q.head) := by
  refine ⟨?_, ?_, ?_, ?_, ?_, ?_, ?_, ?_⟩
  · intro cfg s s' l h; exact step_mono cfg h
  · intro cfg ls s s' h; exact run_mono cfg ls s s' h
  · intro cfg s s' p h; exact pstep_counters cfg h
  · intro cfg s s' c h; exact cstep_counters cfg h
  · intro cfg s s' p v h; exact pstart_counters cfg h
  · intro cfg s s' c h; exact cstart_counters cfg h
  · intro Q q q' x h
    unfold nPush at h
    split at h
    · rw [Option.some.injEq] at h; subst h; exact ⟨rfl, rfl⟩
    · cases h
  · intro Q q q' x h
    unfold nPop at h
    split at h
    · rw [Option.some.injEq] at h
      have := congrArg Prod.snd h
      simp at this
      subst this
      exact ⟨rfl, rfl⟩
    · cases h

/-- Witness: a concrete naive push increments head by 1, and a concrete
lock-free step is monotone, per c7_counters_monotone. -/
theorem c7_counters_monotone_witness :
    (((nPush 2 initNQ 7).getD initNQ).head = initNQ.head + 1 ∧
      ((nPush 2 initNQ 7).getD initNQ).tail = initNQ.tail) ∧
    (initL.head ≤ ((applyLabel cexCfg initL (.cstart 0)).getD initL).head ∧
      initL.tail ≤ ((applyLabel cexCfg initL (.cstart 0)).getD initL).tail) :=
  ⟨c7_counters_monotone.2.2.2.2.2.2.1 2 initNQ _ 7 rfl,
   c7_counters_monotone.1 cexCfg initL _ (.cstart 0) rfl⟩

/-- C8 counterexample: the configuration (1 producer, 1 consumer,
capacity 3) is invalid in the specification's sense (3 is not a power of
two), yet the constructor succeeds when the two allocations succeed —
it performs no validation beyond the allocation asserts. -/
theorem c8_counterexample :
    ¬ specValidCfg 1 1 3 ∧ lfqConstruct 1 1 3 true true = some initL := by
  constructor
  · decide
  · rfl

/-- C8 (amended): construction fails (the allocation asserts fire)
exactly when one of the two allocations fails; the capacity and the
producer/consumer counts are never validated, and every
allocation-successful construction yields the initial state. -/
theorem c8_construct_alloc_only (nProd nCons Q : Nat) (aR aA : Bool) :
    (lfqConstruct nProd nCons Q aR aA = none ↔ ¬ (aR = true ∧ aA = true)) ∧
    (∀ s, lfqConstruct nProd nCons Q aR aA = some s → s = initL) := by
  unfold lfqConstruct
  constructor
  · constructor
    · intro h hcontra
      rw [hcontra.1, hcontra.2] at h
      simp at h
    · intro h
      cases aR <;> cases aA <;> simp_all
  · intro s h
    split at h
    · rw [Option.some.injEq] at h
      exact h.symm
    · cases h

/-- Witness: a successful construction yields the initial state, per
c8_construct_alloc_only. -/
theorem c8_construct_alloc_only_witness : initL = initL :=
  (c8_construct_alloc_only 1 1 3 true true).2 initL rfl

/-- C9: under the precondition that the calling thread's index is below
max(N, M), the thr_pos debug assertion holds, the thr_pos registry
access is in bounds for the registry of length max(n_consumers,
n_producers), and so is every registry access of the wait-loop scans of
push (consumers 0..M) and pop (producers 0..N); an index at or above
max(N, M) violates the assertion. -/
theorem c9_registry_bounds (nProd nCons tid : Nat) :
    (tid < max nProd nCons →
       thrPosOk nProd nCons tid ∧ tid < regLen nProd nCons ∧
       (∀ i, i < nCons → i < regLen nProd nCons) ∧
       (∀ i, i < nProd → i < regLen nProd nCons)) ∧
    (max nProd nCons ≤ tid → ¬ thrPosOk nProd nCons tid) := by
  unfold thrPosOk regLen
  constructor
  · intro h
    refine ⟨by omega, by omega, fun i hi => by omega, fun i hi => by omega⟩
  · intro h hcontra
    omega

/-- Witness: a thread index 1 with 2 producers and 3 consumers passes
the assertion and stays in bounds, per c9_registry_bounds. -/
theorem c9_registry_bounds_witness :
    thrPosOk 2 3 1 ∧ 1 < regLen 2 3 := by
  have h := (c9_registry_bounds 2 3 1).1 (by decide)
  exact ⟨h.1, h.2.1⟩

/-- C10: immediately after a successful construction with N producers
and M consumers, head = tail = last_head = last_tail = 0, every registry
entry below max(N, M) has both fields equal to SENTINEL (in the model
every entry does), and no thread holds any reservation. -/
theorem c10_initial_state (nProd nCons Q : Nat) (aR aA : Bool) (s : LState)
    (h : lfqConstruct nProd nCons Q aR aA = some s) :
    s.head = 0 ∧ s.tail = 0 ∧ s.lastHead = 0 ∧ s.lastTail = 0 ∧
    (∀ i, i < max nProd nCons → s.regHead i = SENTINEL ∧ s.regTail i = SENTINEL) ∧
    (∀ i, prodClaimVal (s.pstate i) = none ∧ consClaimVal (s.cstate i) = none) := by
  unfold lfqConstruct at h
  split at h
  · rw [Option.some.injEq] at h
    subst h
    exact ⟨rfl, rfl, rfl, rfl, fun i _ => ⟨rfl, rfl⟩, fun i => ⟨rfl, rfl⟩⟩
  · cases h

/-- Witness: construction with 2 producers, 3 consumers, capacity 4 and
successful allocations leaves registry entry 1 sentinel on both sides,
per c10_initial_state. -/
theorem c10_initial_state_witness :
    initL.head = 0 ∧ initL.regHead 1 = SENTINEL ∧ initL.regTail 1 = SENTINEL := by
  have h := c10_initial_state 2 3 4 true true initL rfl
  exact ⟨h.1, (h.2.2.2.2.1 1 (by decide)).1, (h.2.2.2.2.1 1 (by decide)).2⟩

/-- Reachability invariant of the naive queue: the counters stay within
the ring-buffer bounds. -/
def nInv (Q : Nat) (q : NQ) : Prop := q.tail ≤ q.head ∧ q.head ≤ q.tail + Q

/-- C5: the reference serialized queue.  Under the queue invariant
(established at construction and preserved by both operations, also
proved here): push proceeds exactly when head − tail ≠ Q — the code's
wait condition tail_ + Q_SIZE > head_ is that condition — and then
writes slots[head & (Q−1)] = x, increments head by 1 and leaves tail and
the other slots unchanged; pop proceeds exactly when head ≠ tail and
then returns slots[tail & (Q−1)], increments tail by 1 and leaves head
and the slots unchanged. -/
theorem c5_naive_ops (Q : Nat) (q : NQ) (x : Nat) (hQ : 0 < Q) (hI : nInv Q q) :
    ((nPush Q q x).isSome = true ↔ q.head - q.tail ≠ Q) ∧
    (∀ q', nPush Q q x = some q' →
       q'.slots (q.head &&& (Q - 1)) = x ∧ q'.head = q.head + 1 ∧ q'.tail = q.tail ∧
       (∀ j, j ≠ q.head &&& (Q - 1) → q'.slots j = q.slots j)) ∧
    ((nPop Q q).isSome = true ↔ q.head ≠ q.tail) ∧
    (∀ x' q', nPop Q q = some (x', q') →
       x' = q.slots (q.tail &&& (Q - 1)) ∧ q'.tail = q.tail + 1 ∧ q'.head = q.head ∧
       q'.slots = q.slots) ∧
    nInv Q initNQ ∧
    (∀ q', nPush Q q x = some q' → nInv Q q') ∧
    (∀ x' q', nPop Q q = some (x', q') → nInv Q q') := by
  obtain ⟨hI1, hI2⟩ := hI
  refine ⟨?_, ?_, ?_, ?_, ?_, ?_, ?_⟩
  · unfold nPush nCanPush
    constructor
    · intro h
      split at h
      · omega
      · simp at h
    · intro h
      have : q.tail + Q > q.head := by omega
      simp [this]
  · intro q' h
    unfold nPush at h
    split at h
    · rw [Option.some.injEq] at h
      subst h
      exact ⟨updf_same _ _ _, rfl, rfl, fun j hj => updf_other _ _ _ hj⟩
    · cases h
  · unfold nPop nCanPop
    constructor
    · intro h
      split at h
      · omega
      · simp at h
    · intro h
      have : q.tail < q.head := by omega
      simp [this]
  · intro x' q' h
    unfold nPop at h
    split at h
    · rw [Option.some.injEq] at h
      obtain ⟨h1, h2⟩ := Prod.mk.injEq .. ▸ h
      exact ⟨h1.symm, by rw [← h2], by rw [← h2], by rw [← h2]⟩
    · cases h
  · exact ⟨le_rfl, Nat.zero_le _⟩
  · intro q' h
    unfold nPush nCanPush at h
    split at h
    · rw [Option.some.injEq] at h
      subst h
      unfold nInv
      constructor <;> [skip; skip] <;> simp <;> omega
    · cases h
  · intro x' q' h
    unfold nPop nCanPop at h
    split at h
    · rw [Option.some.injEq] at h
      have h2 := congrArg Prod.snd h
      simp at h2
      subst h2
      unfold nInv
      constructor <;> simp <;> omega
    · cases h

/-- Witness: on the fresh naive queue a push is enabled, per
c5_naive_ops. -/
theorem c5_naive_ops_witness : (nPush 2 initNQ 7).isSome = true := by
  have h := c5_naive_ops 2 initNQ 7 (by decide) ⟨le_rfl, Nat.zero_le _⟩
  exact h.1.mpr (by decide)

/-- Masking with Q−1 is the identity below a power-of-two Q. -/
theorem land_mask_eq_self {e a : Nat} (h : a < 2 ^ e) : a &&& (2 ^ e - 1) = a := by
  rw [Nat.and_pow_two_sub_one_eq_mod]
  exact Nat.mod_eq_of_lt h

/-- The scan fold keeps its initial value when it is below every
scanned entry (in particular when all entries are SENTINEL). -/
theorem foldMin_of_ge (g : Nat → Nat) :
    ∀ (l : List Nat) (a : Nat), (∀ i ∈ l, a ≤ g i) →
      l.foldl (fun mn i => if g i < mn then g i else mn) a = a := by
  intro l
  induction l with
  | nil => intro a _; rfl
  | cons b l ih =>
    intro a hge
    rw [List.foldl_cons]
    have hb : a ≤ g b := hge b (List.mem_cons_self b l)
    have : (if g b < a then g b else a) = a := by split <;> omega
    rw [this]
    exact ih a (fun i hi => hge i (List.mem_cons_of_mem b hi))

/-- Sequential push phase: pushing xs one by one, starting below
capacity with last_tail_ = 0, never enters the wait loop and lays the
values out at consecutive (unmasked, since below Q) slot positions. -/
theorem pushPhase (cfg : Cfg) (e p : Nat) (hQ : cfg.Q = 2 ^ e) :
    ∀ (xs : List Nat) (q : QS),
      q.lastTail = 0 → q.head + xs.length ≤ cfg.Q →
      ∃ q', pushListS cfg p q xs = some q' ∧
        q'.head = q.head + xs.length ∧ q'.tail = q.tail ∧
        q'.lastHead = q.lastHead ∧ q'.lastTail = 0 ∧
        q'.regTail = q.regTail ∧
        (∀ i, q'.regHead i = SENTINEL ∨ q'.regHead i = q.regHead i) ∧
        (∀ j (hj : j < xs.length), q'.slots (q.head + j) = xs.get ⟨j, hj⟩) ∧
        (∀ i, i < q.head → q'.slots i = q.slots i) := by
  intro xs
  induction xs with
  | nil =>
    intro q h1 h2
    refine ⟨q, rfl, by simp, rfl, rfl, h1, rfl, fun i => Or.inr rfl, ?_, fun i _ => rfl⟩
    intro j hj
    exact absurd hj (by simp)
  | cons x xs ih =>
    intro q h1 h2
    have hm : q.head < cfg.Q := by
      have : xs.length + 1 = (x :: xs).length := by simp
      omega
    have hmask : q.head &&& (cfg.Q - 1) = q.head := by
      rw [hQ]
      exact land_mask_eq_self (hQ ▸ hm)
    have hnw : ¬ (q.lastTail + cfg.Q ≤ q.head) := by omega
    have hstep : pushS cfg p q x = some { q with head := q.head + 1, regHead := updf (updf q.regHead p q.head) p SENTINEL, slots := updf q.slots (q.head &&& (cfg.Q - 1)) x } := by
      simp only [pushS]
      rw [if_neg hnw]
    obtain ⟨q', hrun, hh, ht, hlh, hlt, hrt, hrhOr, hslots, hpres⟩ :=
      ih { q with head := q.head + 1, regHead := updf (updf q.regHead p q.head) p SENTINEL, slots := updf q.slots (q.head &&& (cfg.Q - 1)) x } h1 (by simp at h2 ⊢; omega)
    refine ⟨q', ?_, ?_, ht, hlh, hlt, hrt, ?_, ?_, ?_⟩
    · show pushListS cfg p q (x :: xs) = some q'
      unfold pushListS
      rw [hstep]
      exact hrun
    · rw [hh]; simp; omega
    · intro i
      rcases hrhOr i with hs | he2
      · exact Or.inl hs
      · by_cases hip : i = p
        · subst hip
          refine Or.inl ?_
          rw [he2]
          simp [updf]
        · refine Or.inr ?_
          rw [he2]
          simp [updf, hip]
    · intro j hj
      cases j with
      | zero =>
        have hlt0 : q.head < q.head + 1 := Nat.lt_succ_self _
        have h4 := hpres q.head hlt0
        simp only [hmask] at h4
        rw [Nat.add_zero, h4]
        simp [updf]
      | succ j' =>
        have hj' : j' < xs.length := by simp at hj; omega
        have h4 := hslots j' hj'
        simp only [show q.head + 1 + j' = q.head + (j' + 1) from by omega] at h4
        rw [h4]
        rfl
    · intro i hi
      have hlt1 : i < q.head + 1 := by omega
      have h4 := hpres i hlt1
      simp only [hmask] at h4
      rw [h4]
      simp [updf]
      omega

/-- Sequential pop phase after last_head_ has been raised to the number
of pushed items: each pop passes its check immediately and returns the
stored values in order. -/
theorem popPhase (cfg : Cfg) (e c0 : Nat) (hQ : cfg.Q = 2 ^ e) (L : List Nat)
    (hk : L.length ≤ cfg.Q) :
    ∀ (r : Nat) (q : QS) (i : Nat),
      i + r = L.length →
      q.head = L.length → q.tail = i → q.lastHead = L.length →
      (∀ j (hj : j < L.length), q.slots j = L.get ⟨j, hj⟩) →
      ∃ q', popNS cfg c0 q r = some (L.drop i, q') := by
  intro r
  induction r with
  | zero =>
    intro q i hir hh ht hlh hsl
    refine ⟨q, ?_⟩
    have : i = L.length := by omega
    subst this
    rw [List.drop_length]
    rfl
  | succ r ih =>
    intro q i hir hh ht hlh hsl
    have hik : i < L.length := by omega
    have hiQ : i < cfg.Q := by omega
    have hmask : i &&& (cfg.Q - 1) = i := by
      rw [hQ]
      exact land_mask_eq_self (hQ ▸ hiQ)
    have hnw : ¬ (q.lastHead ≤ q.tail) := by omega
    have hstep : popS cfg c0 q = some (q.slots (q.tail &&& (cfg.Q - 1)), { q with tail := q.tail + 1, regTail := updf (updf q.regTail c0 q.tail) c0 SENTINEL }) := by
      simp only [popS]
      rw [if_neg hnw]
    obtain ⟨q', hrun⟩ :=
      ih { q with tail := q.tail + 1, regTail := updf (updf q.regTail c0 q.tail) c0 SENTINEL } (i + 1) (by omega) hh (by rw [ht]) hlh (fun j hj => hsl j hj)
    refine ⟨q', ?_⟩
    show popNS cfg c0 q (r + 1) = some (L.drop i, q')
    unfold popNS
    rw [hstep]
    dsimp only
    rw [hrun]
    rw [List.drop_eq_getElem_cons hik]
    have hv : q.slots (q.tail &&& (cfg.Q - 1)) = L.get ⟨i, hik⟩ := by
      rw [ht, hmask]
      exact hsl i hik
    rw [hv]
    simp [List.get_eq_getElem]

/-- The first sequential pop on a freshly filled queue: last_head_ is
still 0, so the consumer scans, finds every producer entry SENTINEL and
publishes last_head_ = head, then passes its recheck and reads slot 0. -/
theorem popFirst (cfg : Cfg) (e : Nat) (hQ : cfg.Q = 2 ^ e) (q : QS) (k : Nat)
    (hk1 : 1 ≤ k) (hkS : k ≤ SENTINEL)
    (hh : q.head = k) (ht : q.tail = 0) (hlh : q.lastHead = 0)
    (hreg : ∀ i, q.regHead i = SENTINEL) :
    popS cfg 0 q = some (q.slots 0, { q with tail := 1, lastHead := k, regTail := updf (updf q.regTail 0 0) 0 SENTINEL }) := by
  have hmin : headsMin cfg q.head q.regHead = k := by
    unfold headsMin
    rw [hh]
    exact foldMin_of_ge q.regHead (List.range cfg.N) k (fun i _ => by rw [hreg i]; exact hkS)
  simp only [popS]
  rw [if_pos (by omega : q.lastHead ≤ q.tail)]
  rw [if_neg (show ¬ headsMin cfg q.head q.regHead ≤ q.tail from by rw [hmin, ht]; omega)]
  rw [hmin, ht]
  simp [Nat.zero_and]

/-- Naive push phase: pushing below capacity succeeds and lays the
values at consecutive positions. -/
theorem nPushPhase (Q e : Nat) (hQ : Q = 2 ^ e) :
    ∀ (xs : List Nat) (q : NQ), q.tail = 0 → q.head + xs.length ≤ Q →
      ∃ q', nPushList Q q xs = some q' ∧
        q'.head = q.head + xs.length ∧ q'.tail = 0 ∧
        (∀ j (hj : j < xs.length), q'.slots (q.head + j) = xs.get ⟨j, hj⟩) ∧
        (∀ i, i < q.head → q'.slots i = q.slots i) := by
  intro xs
  induction xs with
  | nil =>
    intro q h0 h2
    refine ⟨q, rfl, by simp, h0, ?_, fun i _ => rfl⟩
    intro j hj
    exact absurd hj (by simp)
  | cons x xs ih =>
    intro q h0 h2
    have hm : q.head < Q := by
      have : (x :: xs).length = xs.length + 1 := by simp
      omega
    have hmask : q.head &&& (Q - 1) = q.head := by
      rw [hQ]
      exact land_mask_eq_self (hQ ▸ hm)
    have hcan : nCanPush Q q := by unfold nCanPush; omega
    have hstep : nPush Q q x = some { head := q.head + 1, tail := q.tail, slots := updf q.slots (q.head &&& (Q - 1)) x } := by
      unfold nPush
      rw [if_pos hcan]
    obtain ⟨q', hrun, hh, ht, hslots, hpres⟩ :=
      ih { head := q.head + 1, tail := q.tail, slots := updf q.slots (q.head &&& (Q - 1)) x } h0 (by simp at h2 ⊢; omega)
    refine ⟨q', ?_, ?_, ht, ?_, ?_⟩
    · show nPushList Q q (x :: xs) = some q'
      unfold nPushList
      rw [hstep]
      exact hrun
    · rw [hh]; simp; omega
    · intro j hj
      cases j with
      | zero =>
        have hlt0 : q.head < q.head + 1 := Nat.lt_succ_self _
        have h4 := hpres q.head hlt0
        simp only [hmask] at h4
        rw [Nat.add_zero, h4]
        simp [updf]
      | succ j' =>
        have hj' : j' < xs.length := by simp at hj; omega
        have h4 := hslots j' hj'
        simp only [show q.head + 1 + j' = q.head + (j' + 1) from by omega] at h4
        rw [h4]
        rfl
    · intro i hi
      have hlt1 : i < q.head + 1 := by omega
      have h4 := hpres i hlt1
      simp only [hmask] at h4
      rw [h4]
      simp [updf]
      omega

/-- Naive pop phase: popping a filled queue returns the stored values
in order. -/
theorem nPopPhase (Q e : Nat) (hQ : Q = 2 ^ e) (L : List Nat) (hk : L.length ≤ Q) :
    ∀ (r : Nat) (q : NQ) (i : Nat),
      i + r = L.length → q.head = L.length → q.tail = i →
      (∀ j (hj : j < L.length), q.slots j = L.get ⟨j, hj⟩) →
      ∃ q', nPopN Q q r = some (L.drop i, q') := by
  intro r
  induction r with
  | zero =>
    intro q i hir hh ht hsl
    refine ⟨q, ?_⟩
    have : i = L.length := by omega
    subst this
    rw [List.drop_length]
    rfl
  | succ r ih =>
    intro q i hir hh ht hsl
    have hik : i < L.length := by omega
    have hiQ : i < Q := by omega
    have hmask : i &&& (Q - 1) = i := by
      rw [hQ]
      exact land_mask_eq_self (hQ ▸ hiQ)
    have hcan : nCanPop q := by unfold nCanPop; omega
    have hstep : nPop Q q = some (q.slots (q.tail &&& (Q - 1)), { head := q.head, tail := q.tail + 1, slots := q.slots }) := by
      unfold nPop
      rw [if_pos hcan]
    obtain ⟨q', hrun⟩ :=
      ih { head := q.head, tail := q.tail + 1, slots := q.slots } (i + 1) (by omega) hh (by rw [ht]) (fun j hj => hsl j hj)
    refine ⟨q', ?_⟩
    show nPopN Q q (r + 1) = some (L.drop i, q')
    unfold nPopN
    rw [hstep]
    dsimp only
    rw [hrun]
    rw [List.drop_eq_getElem_cons hik]
    have hv : q.slots (q.tail &&& (Q - 1)) = L.get ⟨i, hik⟩ := by
      rw [ht, hmask]
      exact hsl i hik
    rw [hv]
    simp [List.get_eq_getElem]

/-- C4: single-producer/single-consumer round trip.  For any k ≤ Q
values pushed sequentially by one producer into either queue with
power-of-two capacity Q = 2^e (e < 64 so that uninitialized SENTINEL
registry entries compare as maxima), k pops by a single consumer return
exactly the pushed values in order. -/
theorem c4_spsc_roundtrip (e : Nat) (xs : List Nat) (he : e < 64)
    (hlen : xs.length ≤ 2 ^ e) :
    (∃ q q', pushListS ⟨1, 1, 2 ^ e⟩ 0 initQS xs = some q ∧
       popNS ⟨1, 1, 2 ^ e⟩ 0 q xs.length = some (xs, q')) ∧
    (∃ n n', nPushList (2 ^ e) initNQ xs = some n ∧
       nPopN (2 ^ e) n xs.length = some (xs, n')) := by
  have hS : 2 ^ e ≤ SENTINEL := by
    unfold SENTINEL
    have h1 : 2 ^ e < 2 ^ 64 := Nat.pow_lt_pow_right (by omega) he
    omega
  constructor
  · obtain ⟨q0, hrun, hh, ht, hlh, hlt, hrt, hrhOr, hslots, hpres⟩ :=
      pushPhase ⟨1, 1, 2 ^ e⟩ e 0 rfl xs initQS rfl (by simpa [initQS] using hlen)
    have hh' : q0.head = xs.length := by simpa [initQS] using hh
    have ht' : q0.tail = 0 := by simpa [initQS] using ht
    have hlh' : q0.lastHead = 0 := by simpa [initQS] using hlh
    have hreg : ∀ i, q0.regHead i = SENTINEL := by
      intro i
      rcases hrhOr i with h | h
      · exact h
      · rw [h]; rfl
    have hsl : ∀ j (hj : j < xs.length), q0.slots j = xs.get ⟨j, hj⟩ := by
      intro j hj
      have h4 := hslots j hj
      simpa [initQS] using h4
    rcases Nat.eq_zero_or_pos xs.length with hlen0 | hk1
    · have hnil : xs = [] := List.length_eq_zero.mp hlen0
      subst hnil
      exact ⟨q0, q0, hrun, rfl⟩
    · have hfirst := popFirst ⟨1, 1, 2 ^ e⟩ e rfl q0 xs.length hk1
        (Nat.le_trans hlen hS) hh' ht' hlh' hreg
      obtain ⟨q', hrest⟩ :=
        popPhase ⟨1, 1, 2 ^ e⟩ e 0 rfl xs hlen (xs.length - 1)
          { q0 with tail := 1, lastHead := xs.length, regTail := updf (updf q0.regTail 0 0) 0 SENTINEL }
          1 (by omega) hh' rfl rfl (fun j hj => hsl j hj)
      refine ⟨q0, q', hrun, ?_⟩
      have hsplit : xs.length = (xs.length - 1) + 1 := by omega
      rw [hsplit]
      unfold popNS
      rw [hfirst]
      dsimp only
      rw [hrest]
      have h0v : q0.slots 0 = xs.get ⟨0, by omega⟩ := hsl 0 (by omega)
      rw [h0v]
      have hx : xs = xs.get ⟨0, by omega⟩ :: xs.drop 1 := by
        have h5 := @List.drop_eq_getElem_cons _ 0 xs (by omega)
        rw [List.drop_zero] at h5
        simpa [List.get_eq_getElem] using h5
      exact congrArg (fun l => some (l, q')) hx.symm
  · obtain ⟨n0, hrun, hh, ht, hslots, hpres⟩ :=
      nPushPhase (2 ^ e) e rfl xs initNQ rfl (by simpa [initNQ] using hlen)
    have hh' : n0.head = xs.length := by simpa [initNQ] using hh
    have hsl : ∀ j (hj : j < xs.length), n0.slots j = xs.get ⟨j, hj⟩ := by
      intro j hj
      have h4 := hslots j hj
      simpa [initNQ] using h4
    obtain ⟨n', hrest⟩ :=
      nPopPhase (2 ^ e) e rfl xs hlen xs.length n0 0 (by omega) hh' ht hsl
    rw [List.drop_zero] at hrest
    exact ⟨n0, n', hrun, hrest⟩

/-- Witness: a concrete round trip with Q = 4 and xs = [3, 1, 2], per
c4_spsc_roundtrip. -/
theorem c4_spsc_roundtrip_witness :
    (∃ q q', pushListS ⟨1, 1, 2 ^ 2⟩ 0 initQS [3, 1, 2] = some q ∧
       popNS ⟨1, 1, 2 ^ 2⟩ 0 q 3 = some ([3, 1, 2], q')) ∧
    (∃ n n', nPushList (2 ^ 2) initNQ [3, 1, 2] = some n ∧
       nPopN (2 ^ 2) n 3 = some ([3, 1, 2], n')) :=
  c4_spsc_roundtrip 2 [3, 1, 2] (by decide) (by decide)
